import Mathlib

/-!
Shallow embedding of the csv-discrepancy-finder pipeline (src/main.py together
with its configuration module src/config/sources.py).

Modelling conventions:
* Python strings are Lean `String`s; `str.lower().strip()` is modelled
  character-wise (`normalize` below).
* A Python `dict` with string keys and values is an association list
  `List (String × String)` with no duplicate keys; `dict[k] = v` assignment is
  `dinsert` (update in place if the key exists, append otherwise), `k in d` is
  `(d.lookup k).isSome`, `d[k]` is `d.lookup k` with a raised `KeyError`
  modelled as an `Except` error when the key is absent.
* The csv collaborator (file reading, delimiter splitting) is external to the
  core (spec §6); a parsed csv file is a `List (List String)` whose first
  element is the header row.
* Raised Python exceptions are modelled by the `Err` error type of an
  `Except Err _` result; distinct error messages get distinct constructors.
* Configuration constants from src/config/sources.py appear as definitions
  (`primary_keys`, `source_1_name`, `source_2_name`); functions that read the
  module-level `primary_keys` take it as an explicit parameter defaulting to
  the configured value.
-/

namespace CsvDiff

/-- Errors raised by the pipeline (Python exception kinds/messages). -/
inductive Err where
  /-- `IndexError("... csv not formatted properly")` in the mapping /
  translations / filtering loaders (row with fewer than two columns). -/
  | formatError
  /-- `IOError("ERROR: Duplicate source values found in mapping csv")`. -/
  | duplicateKey
  /-- `IOError("ERROR: Missing a primary key as a standard mapping value in mapping csv")`. -/
  | configError
  /-- `StopIteration` escaping from `next(reader)` on a file with no header row. -/
  | emptyFile
  /-- `IndexError` from indexing a row past its length, and the
  `IndexError("Something went wrong with the formatting of this source")`
  guard in `read_source_csv`. -/
  | indexError
  /-- `KeyError` from `d[k]` on an absent key. -/
  | keyError
  /-- `ValueError("ERROR: Something went wrong when finding entries to take the difference of")`. -/
  | keyMismatch
  /-- `ValueError("ERROR: One of the sources is incorrectly formatted")`
  (a `KeyError` on `dict_2[key]` caught and re-raised). -/
  | schemaMismatch
  /-- `ValueError` from `list.remove(x)` when `x` is not in the list. -/
  | valueError
deriving DecidableEq, Repr

/-! ### Configuration constants (src/config/sources.py) -/

def primary_keys : List String := ["id"]

def source_1_name : String := "Test 1"

def source_2_name : String := "Test 2"

/-! ### normalize (src/main.py lines 22-29) -/

/-- Python `str.strip()` on a list of characters: drop leading and trailing
whitespace. -/
def pyStrip (l : List Char) : List Char :=
  ((l.dropWhile Char.isWhitespace).reverse.dropWhile Char.isWhitespace).reverse

/-- `normalize(x)`: `x.lower().strip()` — lowercase every character, then strip
leading and trailing whitespace. -/
def normalize (x : String) : String :=
  ⟨pyStrip (x.data.map Char.toLower)⟩

/-! ### The Python dict model -/

/-- A normalized record / generic string-keyed Python dict: an insertion-ordered
association list with (by construction) no duplicate keys. -/
abbrev Record := List (String × String)

/-- Python `d[k] = v`: if `k` is already a key, update its value in place
(position preserved); otherwise append `(k, v)`. -/
def dinsert (d : Record) (k v : String) : Record :=
  if (d.lookup k).isSome then
    d.map (fun p => if p.1 = k then (k, v) else p)
  else
    d ++ [(k, v)]

/-- Python `==` on two dicts: order-insensitive key/value equality. -/
def recordEq (a b : Record) : Bool :=
  a.all (fun p => b.lookup p.1 == some p.2) && b.all (fun p => a.lookup p.1 == some p.2)

/-- The value stored under the reserved key `"primary_key"`, when present. -/
def pkOf (r : Record) : Option String := r.lookup "primary_key"

/-- Sequential loop over a list with exception propagation (Python `for` in
which the body may raise): stop at the first error. -/
def exFold (f : σ → α → Except Err σ) : σ → List α → Except Err σ
  | s, [] => .ok s
  | s, a :: rest =>
    match f s a with
    | .error e => .error e
    | .ok s' => exFold f s' rest

/-- Python `l.remove(x)` for a list of dicts: remove the first element equal
(`==` on dicts) to `x`; raise `ValueError` when there is none. -/
def removeFirst (l : List Record) (x : Record) : Except Err (List Record) :=
  match l with
  | [] => .error .valueError
  | y :: rest =>
    if recordEq y x then .ok rest
    else
      match removeFirst rest x with
      | .error e => .error e
      | .ok r => .ok (y :: r)

/-- The list comprehension `[x for x in l if x['primary_key'] == pk]`: each
element's `'primary_key'` lookup raises `KeyError` when absent. -/
def pkFilterE (l : List Record) (pk : String) : Except Err (List Record) :=
  match l with
  | [] => .ok []
  | x :: rest =>
    match x.lookup "primary_key" with
    | none => .error .keyError
    | some q =>
      match pkFilterE rest pk with
      | .error e => .error e
      | .ok r => .ok (if q == pk then x :: r else r)

/-! ### make_difference_entry (src/main.py lines 56-88) -/

/-- The `for key in dict_1.keys()` loop of `make_difference_entry`: skip
`"primary_key"`, store `dict_1[key]` under `key-[source_1_name]`, then store
`dict_2[key]` (or the sentinel `*same*` when the two values are equal) under
`key-[source_2_name]`; a `KeyError` on `dict_2[key]` is re-raised as the
schema-mismatch `ValueError`. -/
def diffLoop (d2 : Record) (n1 n2 : String) : List (String × String) → Record → Except Err Record
  | [], acc => .ok acc
  | (k, v) :: rest, acc =>
    if k = "primary_key" then
      diffLoop d2 n1 n2 rest acc
    else
      let acc1 := dinsert acc (k ++ "-[" ++ n1 ++ "]") v
      match d2.lookup k with
      | none => .error .schemaMismatch
      | some v2 =>
        diffLoop d2 n1 n2 rest
          (dinsert acc1 (k ++ "-[" ++ n2 ++ "]") (if v == v2 then "*same*" else v2))

/-- `make_difference_entry(dict_1, dict_2, source_1_name, source_2_name)`. -/
def make_difference_entry (d1 d2 : Record)
    (n1 : String := source_1_name) (n2 : String := source_2_name) : Except Err Record :=
  match d1.lookup "primary_key", d2.lookup "primary_key" with
  | some pk1, some pk2 =>
    if pk1 ≠ pk2 then .error .keyMismatch
    else diffLoop d2 n1 n2 d1 [("primary_key", pk1)]
  | _, _ => .error .keyError

/-! ### make_mapping_dict (src/main.py lines 91-137) -/

/-- The two accepted modes of `make_mapping_dict` (the `mode not in {...}`
guard can never fire for a value of this type). -/
inductive Mode where
  | mapping
  | translations
deriving DecidableEq, Repr

/-- The row loop of `make_mapping_dict`: `line[1]` is the source name (raises
`IndexError` → format error on a short row), `line[0]` the standard name; a
source name already present in the dict raises the duplicate-key `IOError`. -/
def mmLoop (acc : List (String × String)) : List (List String) → Except Err (List (String × String))
  | [] => .ok acc
  | line :: rest =>
    match line.get? 1, line.get? 0 with
    | some source_name, some standard_name =>
      if (acc.lookup source_name).isSome then .error .duplicateKey
      else mmLoop (acc ++ [(source_name, standard_name)]) rest
    | _, _ => .error .formatError

/-- `make_mapping_dict(mapping_csv_filepath, mode)` on the parsed rows of the
file (header row first).  In `mapping` mode, after the loop every configured
primary key must appear among the dict's values, else the config `IOError`. -/
def make_mapping_dict (mode : Mode) (file : List (List String))
    (pks : List String := primary_keys) : Except Err (List (String × String)) :=
  match file with
  | [] => .error .emptyFile
  | _headers :: rows =>
    match mmLoop [] rows with
    | .error e => .error e
    | .ok mapping_dict =>
      match mode with
      | .translations => .ok mapping_dict
      | .mapping =>
        if pks.all (fun key => (mapping_dict.map Prod.snd).contains key) then
          .ok mapping_dict
        else
          .error .configError

/-! ### make_filtering_list (src/main.py lines 140-163) -/

/-- `make_filtering_list(filtering_csv_filepath)` on the parsed rows of the
file (header row first): collect `(line[0], line[1])` pairs verbatim, raising
`IndexError` → format error on a short row. -/
def make_filtering_list (file : List (List String)) : Except Err (List (String × String)) :=
  match file with
  | [] => .error .emptyFile
  | _headers :: rows =>
    exFold (fun filtering_list line =>
      match line.get? 0, line.get? 1 with
      | some fieldname, some value => .ok (filtering_list ++ [(fieldname, value)])
      | _, _ => .error .formatError) [] rows

/-! ### read_source_csv (src/main.py lines 166-262) -/

/-- Result of the header scan (lines 196-203): positions of primary-key
columns, and `(standard name, position)` for each retained value column.
The source renames `headers[idx]` in place to the standard name and stores
`(original name, idx)` in `headers_to_compare`; since the stored original name
is never used again and `headers[header_idx]` is exactly the standard name,
the pair `(standard name, position)` carries the same information. -/
structure HeaderInfo where
  pk_indices : List Nat
  cols : List (String × Nat)
deriving DecidableEq, Repr

/-- The header scan: a header mapped to a primary-key standard field records
its position in `pk_indices`; a header mapped to any other standard field
becomes a value column; unmapped headers are ignored. -/
def processHeaders (mapping : List (String × String)) (pks : List String)
    (headers : List String) : HeaderInfo :=
  (headers.enum).foldl (fun info p =>
    match mapping.lookup p.2 with
    | some std =>
      if std ∈ pks then { info with pk_indices := info.pk_indices ++ [p.1] }
      else { info with cols := info.cols ++ [(std, p.1)] }
    | none => info) ⟨[], []⟩

/-- Lines 211-213: the raw composite key `pk`, concatenating
`entry[pk_idx] + " "` over the recorded key positions (an out-of-range index
raises `IndexError`). -/
def buildPk (pk_indices : List Nat) (row : List String) : Except Err String :=
  exFold (fun pk i =>
    match row.get? i with
    | some v => .ok (pk ++ v ++ " ")
    | none => .error .indexError) "" pk_indices

/-- Lines 220-223: the stored value for one cell — substitute via the
translations dict when the raw value is one of its keys, then normalize. -/
def translateValue (translations : List (String × String)) (value : String) : String :=
  match translations.lookup value with
  | some w => normalize w
  | none => normalize value

/-- Lines 216-223: populate the record's value fields under their standard
names (`headers[header_idx]` after the in-place rename). -/
def buildFields (cols : List (String × Nat)) (translations : List (String × String))
    (row : List String) (init : Record) : Except Err Record :=
  exFold (fun entry_dict p =>
    match row.get? p.2 with
    | some value => .ok (dinsert entry_dict p.1 (translateValue translations value))
    | none => .error .indexError) init cols

/-- Lines 208-223: build one row's record — `primary_key` first (line 214),
then the value fields.  Returns the raw un-normalized `pk` alongside, since
lines 236-239 branch on the raw string. -/
def buildEntry (info : HeaderInfo) (translations : List (String × String))
    (row : List String) : Except Err (String × Record) :=
  match buildPk info.pk_indices row with
  | .error e => .error e
  | .ok pk =>
    match buildFields info.cols translations row [("primary_key", normalize pk)] with
    | .error e => .error e
    | .ok entry_dict => .ok (pk, entry_dict)

/-- Lines 226-231: the filter loop — every rule is evaluated (no early exit);
`entry_dict[fieldname]` raises `KeyError` when the rule names an absent
field. -/
def filterCheck (filtering_list : List (String × String)) (entry_dict : Record) :
    Except Err Bool :=
  exFold (fun ignore p =>
    match entry_dict.lookup p.1 with
    | some v => .ok (ignore || v == p.2)
    | none => .error .keyError) false filtering_list

/-- `pk == "" or pk.isspace()` (line 236): the raw key is empty or all
whitespace. -/
def isBlank (s : String) : Bool :=
  s.data.all Char.isWhitespace

/-- The normalizer's mutable state across the row loop. -/
structure ReadState where
  entries : List Record
  missing_pks : List Record
  duplicates : List Record
  seen_pks : List String
deriving DecidableEq, Repr

/-- One iteration of the row loop (lines 207-255). -/
def readRow (info : HeaderInfo) (translations : List (String × String))
    (filtering_list : List (String × String)) (s : ReadState) (row : List String) :
    Except Err ReadState :=
  match buildEntry info translations row with
  | .error e => .error e
  | .ok (pk, entry_dict) =>
    match filterCheck filtering_list entry_dict with
    | .error e => .error e
    | .ok ignore =>
      if ignore then
        .ok s
      else if isBlank pk then
        .ok { s with missing_pks := s.missing_pks ++ [entry_dict] }
      else
        let pk := normalize pk
        if s.seen_pks.contains pk then
          -- duplicates.append(entry_dict), then quarantine any resident record
          let s := { s with duplicates := s.duplicates ++ [entry_dict] }
          -- `pk in {x['primary_key'] for x in entries}` ↔ `to_delete ≠ []`
          match pkFilterE s.entries pk with
          | .error e => .error e
          | .ok [] => .ok s
          | .ok [item_to_delete] =>
            match removeFirst s.entries item_to_delete with
            | .error e => .error e
            | .ok entries =>
              .ok { s with duplicates := s.duplicates ++ [item_to_delete], entries := entries }
          | .ok _ => .error .indexError
        else
          .ok { s with seen_pks := s.seen_pks ++ [pk], entries := s.entries ++ [entry_dict] }

/-- Python's `<=` on strings: lexicographic comparison by code point. -/
def charListLe : List Char → List Char → Bool
  | [], _ => true
  | _ :: _, [] => false
  | a :: as, b :: bs =>
    if a.toNat < b.toNat then true
    else if b.toNat < a.toNat then false
    else charListLe as bs

def strLe (a b : String) : Bool := charListLe a.data b.data

/-- Stable insertion of a record into a list already sorted by primary key:
the record goes after every element with a smaller-or-equal key, so records
with equal keys keep their original relative order — the stability guarantee
of Python's `list.sort`. -/
def insertByPk (x : Record) : List Record → List Record
  | [] => [x]
  | y :: rest =>
    if strLe ((pkOf y).getD "") ((pkOf x).getD "") then y :: insertByPk x rest
    else x :: y :: rest

/-- Lines 257-259: `l.sort(key=lambda x: x['primary_key'])` — a stable sort by
the primary-key field, modelled as stable insertion sort (Python's timsort is
stable, and every stable sort by the same key computes the same list; every
record reaching the sort carries the `"primary_key"` key, so the `Option`
default is never consulted). -/
def sortByPk (l : List Record) : List Record :=
  l.foldl (fun acc x => insertByPk x acc) []

/-- `read_source_csv(source_csv_filepath, mapping_dict, translations_dict,
filtering_list)` on the parsed rows of the source file (header row first).
Returns `(entries, missing_pks, duplicates)`. -/
def read_source_csv (mapping translations filtering_list : List (String × String))
    (file : List (List String)) (pks : List String := primary_keys) :
    Except Err (List Record × List Record × List Record) :=
  match file with
  | [] => .error .emptyFile
  | headers :: rows =>
    let info := processHeaders mapping pks headers
    match exFold (readRow info translations filtering_list) ⟨[], [], [], []⟩ rows with
    | .error e => .error e
    | .ok s => .ok (sortByPk s.entries, s.missing_pks, sortByPk s.duplicates)

/-! ### The comparison loop of compare_sources (src/main.py lines 298-322)

`compare_sources` reads both sources, then runs the loop below and hands every
non-empty result list to the report-emitter collaborator.  The loop iterates
over `source_1_entries_copy` (an element-wise copy of the normalizer's list —
copies of dicts are equal values, so the iteration list and the match pool
`source_2_entries_copy` are simply the initial lists, never mutated), while
`list.remove` bookkeeping acts on `source_1_entries` / `source_2_entries`
themselves, and `source_2_extra` is what remains of `source_2_entries`. -/

/-- The reconciler's mutable state: the two lists the `remove` calls act on
(`source_1_entries`, `source_2_entries`), plus the grown result lists. -/
structure CompareState where
  s1 : List Record
  s2 : List Record
  extra1 : List Record
  diffs : List Record
deriving DecidableEq, Repr

/-- One iteration of the comparison loop (lines 306-319) for `entry`:
`mtchs` is recomputed against the full, never-mutated
`source_2_entries_copy`; more than one match is logged and skipped; no match
appends to `source_1_extra`; exactly one match appends a difference entry when
the records differ and removes both records from the mutated originals. -/
def compareEntry (s2copy : List Record) (n1 n2 : String) (st : CompareState)
    (entry : Record) : Except Err CompareState :=
  match entry.lookup "primary_key" with
  | none => .error .keyError
  | some entry_pk =>
    match pkFilterE s2copy entry_pk with
    | .error e => .error e
    | .ok mtchs =>
      if mtchs.length > 1 then
        .ok st  -- "ERROR: Something went wrong when searching for duplicates" — log only
      else
        match mtchs with
        | [] => .ok { st with extra1 := st.extra1 ++ [entry] }
        | mtch :: _ =>
          let withDiff : Except Err CompareState :=
            if recordEq entry mtch then .ok st
            else
              match make_difference_entry entry mtch n1 n2 with
              | .error e => .error e
              | .ok d => .ok { st with diffs := st.diffs ++ [d] }
          match withDiff with
          | .error e => .error e
          | .ok st =>
            match removeFirst st.s1 entry with
            | .error e => .error e
            | .ok s1 =>
              match removeFirst st.s2 mtch with
              | .error e => .error e
              | .ok s2 => .ok { st with s1 := s1, s2 := s2 }

/-- The comparison phase of `compare_sources` on two normalized indices:
returns `(source_1_extra, source_2_extra, differences, source_1_entries,
source_2_entries)` — the last two being the normalizer-returned lists as the
loop leaves them (`source_2_extra` is exactly the final `source_2_entries`). -/
def reconcile (n1 n2 : String) (e1 e2 : List Record) :
    Except Err (List Record × List Record × List Record × List Record × List Record) :=
  let source_1_entries_copy := e1
  let source_2_entries_copy := e2
  match exFold (compareEntry source_2_entries_copy n1 n2) ⟨e1, e2, [], []⟩
      source_1_entries_copy with
  | .error e => .error e
  | .ok st => .ok (st.extra1, st.s2, st.diffs, st.s1, st.s2)

/-! ## Basic lemmas about the dict model -/

theorem lookup_cons {p : String × String} {rest : Record} {k : String} :
    ((p :: rest).lookup k) = if k = p.1 then some p.2 else rest.lookup k := by
  rcases hb : k == p.1 with _ | _
  · rw [if_neg (by simpa using hb)]
    simp [List.lookup, hb]
  · rw [if_pos (by simpa using hb)]
    simp [List.lookup, hb]

theorem lookup_append_left {d1 d2 : Record} {k : String} (h : (d1.lookup k).isSome) :
    (d1 ++ d2).lookup k = d1.lookup k := by
  induction d1 with
  | nil => simp at h
  | cons p rest ih =>
    rw [List.cons_append, lookup_cons, lookup_cons]
    rw [lookup_cons] at h
    by_cases hk : k = p.1
    · rw [if_pos hk, if_pos hk]
    · rw [if_neg hk, if_neg hk]
      rw [if_neg hk] at h
      exact ih h

theorem lookup_append_right {d1 d2 : Record} {k : String} (h : d1.lookup k = none) :
    (d1 ++ d2).lookup k = d2.lookup k := by
  induction d1 with
  | nil => simp
  | cons p rest ih =>
    rw [List.cons_append, lookup_cons]
    rw [lookup_cons] at h
    by_cases hk : k = p.1
    · rw [if_pos hk] at h; cases h
    · rw [if_neg hk]
      rw [if_neg hk] at h
      exact ih h

theorem lookup_eq_none_iff {d : Record} {k : String} :
    d.lookup k = none ↔ k ∉ d.map Prod.fst := by
  induction d with
  | nil => simp
  | cons p rest ih =>
    rw [lookup_cons]
    simp only [List.map_cons, List.mem_cons]
    by_cases hk : k = p.1
    · simp [hk]
    · rw [if_neg hk]; simp [hk, ih]

theorem dinsert_of_lookup_none {d : Record} {k : String} (v : String)
    (h : d.lookup k = none) : dinsert d k v = d ++ [(k, v)] := by
  simp [dinsert, h]

/-- Membership of a key in a record, as lookup success. -/
theorem lookup_mem {d : Record} {k v : String} (h : d.lookup k = some v) : (k, v) ∈ d := by
  induction d with
  | nil => simp [List.lookup] at h
  | cons p rest ih =>
    rw [lookup_cons] at h
    by_cases hk : k = p.1
    · rw [if_pos hk] at h
      injection h with h2
      exact List.mem_cons.mpr (Or.inl (by cases p; simp_all))
    · rw [if_neg hk] at h
      exact List.mem_cons_of_mem _ (ih h)

theorem lookup_isSome_iff {d : Record} {k : String} :
    (d.lookup k).isSome ↔ k ∈ d.map Prod.fst := by
  rcases h : d.lookup k with _ | v
  · simp only [Option.isSome_none, Bool.false_eq_true, false_iff]
    exact lookup_eq_none_iff.mp h
  · simp only [Option.isSome_some, true_iff]
    exact List.mem_map.mpr ⟨(k, v), lookup_mem h, rfl⟩

theorem recordEq_symm (a b : Record) : recordEq a b = recordEq b a := by
  simp [recordEq, Bool.and_comm]

theorem recordEq_lookup {a b : Record} (h : recordEq a b = true) {k v : String}
    (hk : a.lookup k = some v) : b.lookup k = some v := by
  simp only [recordEq, Bool.and_eq_true, List.all_eq_true] at h
  have := h.1 (k, v) (lookup_mem hk)
  simpa using this

theorem recordEq_refl {a : Record} (h : (a.map Prod.fst).Nodup) : recordEq a a = true := by
  simp only [recordEq, Bool.and_eq_true, List.all_eq_true, and_self]
  intro p hp
  simp only [beq_iff_eq]
  -- the first pair with key p.1 is p itself, since keys are distinct
  induction a with
  | nil => simp at hp
  | cons q rest ih =>
    simp only [List.map_cons, List.nodup_cons] at h
    simp only [List.mem_cons] at hp
    rcases hp with rfl | hp
    · rw [lookup_cons, if_pos rfl]
    · have hne : p.1 ≠ q.1 := by
        intro he
        exact h.1 (he ▸ List.mem_map_of_mem Prod.fst hp)
      rw [lookup_cons, if_neg hne]
      exact ih h.2 hp

/-! ## make_difference_entry: lemmas and claim C4 -/

/-- The non-key fields of a record, in record order (the fields the
`make_difference_entry` loop emits columns for). -/
def nonKeyFields (d : Record) : List (String × String) :=
  d.filter (fun p => p.1 ≠ "primary_key")

/-- The generated column names for a list of fields. -/
def colsOf (fields : List (String × String)) (n1 n2 : String) : List String :=
  (fields.filter (fun p => p.1 ≠ "primary_key")).flatMap
    (fun p => [p.1 ++ "-[" ++ n1 ++ "]", p.1 ++ "-[" ++ n2 ++ "]"])

/-- All column names a difference entry would use for `d1`'s fields, the
reserved key first.  The claim's reading presumes these don't collide. -/
def colNames (d1 : Record) (n1 n2 : String) : List String :=
  "primary_key" :: colsOf d1 n1 n2

/-- The column pairs the loop appends for the non-key fields `fields`. -/
def diffCols (d2 : Record) (n1 n2 : String) (fields : List (String × String)) : Record :=
  (fields.filter (fun p => p.1 ≠ "primary_key")).flatMap (fun p =>
    [(p.1 ++ "-[" ++ n1 ++ "]", p.2),
     (p.1 ++ "-[" ++ n2 ++ "]",
       if p.2 == (d2.lookup p.1).getD "" then "*same*" else (d2.lookup p.1).getD "")])

/-- Stated from the spec's words (§4.6): the difference entry carries the
shared key under `primary_key` and, for every non-key field of record 1 in
record 1's order, record 1's value under the source-1 column and — under the
source-2 column — record 2's value when the values differ, the sentinel
`*same*` when they agree. -/
def diffEntrySpec (d1 d2 : Record) (n1 n2 pk : String) : Record :=
  ("primary_key", pk) :: diffCols d2 n1 n2 d1

theorem diffLoop_error {d2 : Record} {n1 n2 : String} :
    ∀ (fields : List (String × String)) (acc : Record),
    (∃ p ∈ fields, p.1 ≠ "primary_key" ∧ d2.lookup p.1 = none) →
    diffLoop d2 n1 n2 fields acc = .error .schemaMismatch := by
  intro fields
  induction fields with
  | nil => intro acc h; simp at h
  | cons q rest ih =>
    intro acc h
    by_cases hq : q.1 = "primary_key"
    · have h' : ∃ p ∈ rest, p.1 ≠ "primary_key" ∧ d2.lookup p.1 = none := by
        rcases h with ⟨p, hp, hne, hnone⟩
        rcases List.mem_cons.mp hp with rfl | hp
        · exact absurd hq hne
        · exact ⟨p, hp, hne, hnone⟩
      obtain ⟨k, v⟩ := q
      simp only at hq
      subst hq
      simpa [diffLoop] using ih _ h'
    · obtain ⟨k, v⟩ := q
      simp only at hq
      rcases hd : d2.lookup k with _ | v2
      · simp [diffLoop, hq, hd]
      · have h' : ∃ p ∈ rest, p.1 ≠ "primary_key" ∧ d2.lookup p.1 = none := by
          rcases h with ⟨p, hp, hne, hnone⟩
          rcases List.mem_cons.mp hp with rfl | hp
          · rw [hnone] at hd; cases hd
          · exact ⟨p, hp, hne, hnone⟩
        simpa [diffLoop, hq, hd] using ih _ h'

theorem colsOf_cons_key {rest : List (String × String)} {v n1 n2 : String} :
    colsOf (("primary_key", v) :: rest) n1 n2 = colsOf rest n1 n2 := by
  simp [colsOf, List.filter_cons]

theorem colsOf_cons_nonkey {rest : List (String × String)} {k v n1 n2 : String}
    (hq : k ≠ "primary_key") :
    colsOf ((k, v) :: rest) n1 n2 =
      (k ++ "-[" ++ n1 ++ "]") :: (k ++ "-[" ++ n2 ++ "]") :: colsOf rest n1 n2 := by
  simp [colsOf, List.filter_cons, hq]

theorem diffCols_cons_key {d2 : Record} {rest : List (String × String)} {v n1 n2 : String} :
    diffCols d2 n1 n2 (("primary_key", v) :: rest) = diffCols d2 n1 n2 rest := by
  simp [diffCols, List.filter_cons]

theorem diffCols_cons_nonkey {d2 : Record} {rest : List (String × String)} {k v n1 n2 : String}
    (hq : k ≠ "primary_key") :
    diffCols d2 n1 n2 ((k, v) :: rest) =
      (k ++ "-[" ++ n1 ++ "]", v) ::
      (k ++ "-[" ++ n2 ++ "]",
        if v == (d2.lookup k).getD "" then "*same*" else (d2.lookup k).getD "") ::
      diffCols d2 n1 n2 rest := by
  simp [diffCols, List.filter_cons, hq]

theorem diffLoop_ok {d2 : Record} {n1 n2 : String} :
    ∀ (fields : List (String × String)) (acc : Record),
    (∀ p ∈ fields, p.1 ≠ "primary_key" → (d2.lookup p.1).isSome) →
    (∀ c ∈ colsOf fields n1 n2, acc.lookup c = none) →
    (colsOf fields n1 n2).Nodup →
    diffLoop d2 n1 n2 fields acc = .ok (acc ++ diffCols d2 n1 n2 fields) := by
  intro fields
  induction fields with
  | nil => intro acc _ _ _; simp [diffLoop, diffCols]
  | cons q rest ih =>
    intro acc hall hfresh hnd
    obtain ⟨k, v⟩ := q
    by_cases hq : k = "primary_key"
    · subst hq
      rw [colsOf_cons_key] at hfresh hnd
      have := ih acc (fun p hp => hall p (List.mem_cons_of_mem _ hp)) hfresh hnd
      rw [diffCols_cons_key]
      simpa [diffLoop] using this
    · rcases hd : d2.lookup k with _ | v2
      · exact absurd (hall (k, v) (List.mem_cons_self _ _) hq) (by simp [hd])
      · rw [colsOf_cons_nonkey hq] at hfresh hnd
        set c1 := k ++ "-[" ++ n1 ++ "]" with hc1
        set c2 := k ++ "-[" ++ n2 ++ "]" with hc2
        have hf1 : acc.lookup c1 = none := hfresh c1 (by simp)
        have hf2 : acc.lookup c2 = none := hfresh c2 (by simp [List.mem_cons])
        simp only [List.nodup_cons, List.mem_cons] at hnd
        have hc12 : c2 ≠ c1 := fun h => hnd.1 (Or.inl h.symm)
        -- the two dinserts append fresh pairs
        have e1 : dinsert acc c1 v = acc ++ [(c1, v)] := dinsert_of_lookup_none _ hf1
        have hl2 : (acc ++ [(c1, v)]).lookup c2 = none := by
          rw [lookup_append_right hf2, lookup_cons, if_neg hc12]
          rfl
        set w := if v == v2 then "*same*" else v2 with hw
        have e2 : dinsert (acc ++ [(c1, v)]) c2 w = acc ++ [(c1, v), (c2, w)] := by
          rw [dinsert_of_lookup_none _ hl2, List.append_assoc]
          rfl
        -- the recursive call on the grown accumulator
        have hfresh' : ∀ c ∈ colsOf rest n1 n2, (acc ++ [(c1, v), (c2, w)]).lookup c = none := by
          intro c hc
          have hcc1 : c ≠ c1 := fun h => hnd.1 (Or.inr (h ▸ hc))
          have hcc2 : c ≠ c2 := fun h => (hnd.2.1 : c2 ∉ colsOf rest n1 n2) (h ▸ hc)
          rw [lookup_append_right (hfresh c (by simp [hc])), lookup_cons, if_neg hcc1,
            lookup_cons, if_neg hcc2]
          rfl
        have hrec := ih (acc ++ [(c1, v), (c2, w)])
          (fun p hp => hall p (List.mem_cons_of_mem _ hp)) hfresh' hnd.2.2
        show diffLoop d2 n1 n2 ((k, v) :: rest) acc = _
        rw [diffCols_cons_nonkey hq, hd]
        simp only [diffLoop, if_neg hq, hd, ← hc1, ← hc2, e1, e2]
        rw [hrec]
        simp [hw]

/-- **C4.** `make_difference_entry` fails with the key-mismatch error whenever
the two records' primary keys differ; for records with equal primary keys it
fails with the schema-mismatch error iff some non-key field of record 1 is
absent from record 2, and otherwise returns an entry that, for every non-key
field of record 1 in record 1's field order, carries record 1's value under
the source-1-labelled column and, under the source-2-labelled column, record
2's value when the two values differ and the sentinel literal `*same*` when
they are equal (`diffEntrySpec`).  Hypotheses: both records carry a
`primary_key` field (otherwise the Python code raises `KeyError` before any of
the claimed behaviour), and the generated column names don't collide. -/
theorem C4_make_difference_entry (d1 d2 : Record) (n1 n2 pk1 pk2 : String)
    (h1 : d1.lookup "primary_key" = some pk1) (h2 : d2.lookup "primary_key" = some pk2)
    (hnd : (colNames d1 n1 n2).Nodup) :
    (pk1 ≠ pk2 → make_difference_entry d1 d2 n1 n2 = .error .keyMismatch) ∧
    (pk1 = pk2 →
      ((make_difference_entry d1 d2 n1 n2 = .error .schemaMismatch) ↔
        ∃ p ∈ d1, p.1 ≠ "primary_key" ∧ d2.lookup p.1 = none) ∧
      ((∀ p ∈ d1, p.1 ≠ "primary_key" → (d2.lookup p.1).isSome) →
        make_difference_entry d1 d2 n1 n2 = .ok (diffEntrySpec d1 d2 n1 n2 pk1))) := by
  simp only [colNames, List.nodup_cons] at hnd
  have hfresh : ∀ c ∈ colsOf d1 n1 n2, (([("primary_key", pk1)] : Record).lookup c) = none := by
    intro c hc
    have : c ≠ "primary_key" := fun h => hnd.1 (h ▸ hc)
    rw [lookup_cons, if_neg this]
    rfl
  constructor
  · intro hne
    simp [make_difference_entry, h1, h2, hne]
  · intro heq
    subst heq
    have hform : make_difference_entry d1 d2 n1 n2 = diffLoop d2 n1 n2 d1 [("primary_key", pk1)] := by
      simp [make_difference_entry, h1, h2]
    constructor
    · constructor
      · intro herr
        by_contra hno
        push_neg at hno
        have hall : ∀ p ∈ d1, p.1 ≠ "primary_key" → (d2.lookup p.1).isSome := by
          intro p hp hpk
          rcases hl : d2.lookup p.1 with _ | w
          · exact absurd hl (hno p hp hpk)
          · simp
        rw [hform, diffLoop_ok d1 _ hall hfresh hnd.2] at herr
        cases herr
      · intro hex
        rw [hform]
        exact diffLoop_error d1 _ hex
    · intro hall
      rw [hform, diffLoop_ok d1 _ hall hfresh hnd.2]
      rfl

/-- Witness for C4 at concrete records: primary keys agree, all non-key fields
of record 1 are present in record 2, and the returned entry is the described
column list (one differing field, one equal field marked `*same*`). -/
theorem C4_witness :
    ([("primary_key", "1"), ("a", "x"), ("b", "y")] : Record).lookup "primary_key" = some "1" ∧
    make_difference_entry [("primary_key", "1"), ("a", "x"), ("b", "y")]
        [("primary_key", "1"), ("a", "x"), ("b", "z")] "S1" "S2" =
      .ok [("primary_key", "1"), ("a-[S1]", "x"), ("a-[S2]", "*same*"),
           ("b-[S1]", "y"), ("b-[S2]", "z")] := by
  refine ⟨by decide, ?_⟩
  have h := C4_make_difference_entry
    [("primary_key", "1"), ("a", "x"), ("b", "y")]
    [("primary_key", "1"), ("a", "x"), ("b", "z")] "S1" "S2" "1" "1"
    (by decide) (by decide) (by decide)
  have h2 := (h.2 rfl).2 (by decide)
  rw [h2]
  rfl

/-! ## make_mapping_dict: lemmas and claim C6 -/

/-- The source names of the data rows (column 1), short rows contributing
nothing. -/
def sourceNames (rows : List (List String)) : List String :=
  rows.filterMap (fun r => r.get? 1)

theorem sourceNames_nil : sourceNames [] = [] := rfl

theorem sourceNames_cons_some {r : List String} {rest : List (List String)} {sn : String}
    (h : r.get? 1 = some sn) : sourceNames (r :: rest) = sn :: sourceNames rest := by
  simp only [sourceNames, List.filterMap_cons, h]

theorem sourceNames_cons_none {r : List String} {rest : List (List String)}
    (h : r.get? 1 = none) : sourceNames (r :: rest) = sourceNames rest := by
  simp only [sourceNames, List.filterMap_cons, h]

theorem mmLoop_ok :
    ∀ (rows : List (List String)) (acc : List (String × String)),
    (∀ r ∈ rows, 2 ≤ r.length) →
    (acc.map Prod.fst ++ sourceNames rows).Nodup →
    mmLoop acc rows =
      .ok (acc ++ rows.map (fun r => ((r.get? 1).getD "", (r.get? 0).getD ""))) := by
  intro rows
  induction rows with
  | nil => intro acc _ _; simp [mmLoop]
  | cons r rest ih =>
    intro acc hlen hnd
    have hr : 2 ≤ r.length := hlen r (List.mem_cons_self _ _)
    rcases h1 : r.get? 1 with _ | sn
    · rw [List.get?_eq_none] at h1; omega
    rcases h0 : r.get? 0 with _ | std
    · rw [List.get?_eq_none] at h0; omega
    rw [sourceNames_cons_some h1] at hnd
    have hsn : sn ∉ acc.map Prod.fst := by
      intro hmem
      rcases (List.nodup_append.mp hnd) with ⟨_, _, hdis⟩
      exact hdis hmem (List.mem_cons_self _ _)
    have hlook : (acc.lookup sn) = none := lookup_eq_none_iff.mpr hsn
    have hnd' : ((acc ++ [(sn, std)]).map Prod.fst ++ sourceNames rest).Nodup := by
      simpa [List.append_assoc] using hnd
    have hrec := ih (acc ++ [(sn, std)]) (fun q hq => hlen q (List.mem_cons_of_mem _ hq)) hnd'
    simp only [mmLoop, h1, h0]
    rw [if_neg (by simp [hlook]), hrec]
    simp only [List.map_cons, h1, h0, Option.getD_some, List.append_assoc,
      List.singleton_append]

theorem mmLoop_format_iff :
    ∀ (rows : List (List String)) (acc : List (String × String)),
    (acc.map Prod.fst ++ sourceNames rows).Nodup →
    ((mmLoop acc rows = .error .formatError) ↔ ∃ r ∈ rows, r.length < 2) := by
  intro rows
  induction rows with
  | nil => intro acc _; simp [mmLoop]
  | cons r rest ih =>
    intro acc hnd
    rcases h1 : r.get? 1 with _ | sn
    · have hshort : r.length < 2 := by
        rw [List.get?_eq_none] at h1; omega
      simp only [mmLoop, h1]
      constructor
      · intro _
        exact ⟨r, List.mem_cons_self _ _, hshort⟩
      · intro _
        trivial
    · have hr : 2 ≤ r.length := by
        by_contra hlt
        rw [List.get?_eq_none.mpr (by omega)] at h1
        cases h1
      rcases h0 : r.get? 0 with _ | std
      · rw [List.get?_eq_none] at h0; omega
      rw [sourceNames_cons_some h1] at hnd
      have hsn : sn ∉ acc.map Prod.fst := by
        intro hmem
        rcases (List.nodup_append.mp hnd) with ⟨_, _, hdis⟩
        exact hdis hmem (List.mem_cons_self _ _)
      have hlook : (acc.lookup sn) = none := lookup_eq_none_iff.mpr hsn
      have hnd' : ((acc ++ [(sn, std)]).map Prod.fst ++ sourceNames rest).Nodup := by
        simpa [List.append_assoc] using hnd
      have hrec := ih (acc ++ [(sn, std)]) hnd'
      simp only [mmLoop, h1, h0]
      rw [if_neg (by simp [hlook]), hrec]
      constructor
      · intro ⟨q, hq, hqlen⟩; exact ⟨q, List.mem_cons_of_mem _ hq, hqlen⟩
      · intro ⟨q, hq, hqlen⟩
        rcases List.mem_cons.mp hq with rfl | hq
        · omega
        · exact ⟨q, hq, hqlen⟩

theorem mmLoop_dup_iff :
    ∀ (rows : List (List String)) (acc : List (String × String)),
    (∀ r ∈ rows, 2 ≤ r.length) →
    (acc.map Prod.fst).Nodup →
    ((mmLoop acc rows = .error .duplicateKey) ↔
      ¬ (acc.map Prod.fst ++ sourceNames rows).Nodup) := by
  intro rows
  induction rows with
  | nil =>
    intro acc _ hk
    simp [mmLoop, sourceNames_nil, hk]
  | cons r rest ih =>
    intro acc hlen hk
    have hr : 2 ≤ r.length := hlen r (List.mem_cons_self _ _)
    rcases h1 : r.get? 1 with _ | sn
    · rw [List.get?_eq_none] at h1; omega
    rcases h0 : r.get? 0 with _ | std
    · rw [List.get?_eq_none] at h0; omega
    rw [sourceNames_cons_some h1]
    by_cases hsn : sn ∈ acc.map Prod.fst
    · have hlook : (acc.lookup sn).isSome := lookup_isSome_iff.mpr hsn
      simp only [mmLoop, h1, h0]
      rw [if_pos hlook]
      constructor
      · intro _ hnd
        rcases (List.nodup_append.mp hnd) with ⟨_, _, hdis⟩
        exact hdis hsn (List.mem_cons_self _ _)
      · intro _
        rfl
    · have hlook : (acc.lookup sn) = none := lookup_eq_none_iff.mpr hsn
      simp only [mmLoop, h1, h0]
      rw [if_neg (by simp [hlook])]
      have hk' : ((acc ++ [(sn, std)]).map Prod.fst).Nodup := by
        simp only [List.map_append, List.map_cons, List.map_nil]
        exact List.Nodup.append hk (List.nodup_singleton _)
          (by intro a ha hb; simp at hb; subst hb; exact hsn ha)
      have hrec := ih (acc ++ [(sn, std)]) (fun q hq => hlen q (List.mem_cons_of_mem _ hq)) hk'
      rw [hrec]
      constructor
      · intro h hnd
        exact h (by simpa [List.append_assoc] using hnd)
      · intro h hnd
        exact h (by simpa [List.append_assoc] using hnd)

/-- **C6.** The mapping loader fails with the format error on any row with
fewer than two columns, fails with the duplicate-key error when the same
source name appears in two rows, and, in mapping mode, after parsing fails
with the config error iff some configured primary-key field name is absent
from the loaded mapping's value set; for every valid mapping file the returned
mapping's value set contains every configured primary-key field.  (Each part
is stated under hypotheses ruling the other failure modes out, since the row
loop surfaces the first problem it scans.) -/
theorem C6_make_mapping_dict (mode : Mode) (pks : List String) (hdr : List String)
    (rows : List (List String)) :
    ((sourceNames rows).Nodup →
      ((make_mapping_dict mode (hdr :: rows) pks = .error .formatError) ↔
        ∃ r ∈ rows, r.length < 2)) ∧
    ((∀ r ∈ rows, 2 ≤ r.length) →
      ((make_mapping_dict mode (hdr :: rows) pks = .error .duplicateKey) ↔
        ¬ (sourceNames rows).Nodup)) ∧
    ((∀ r ∈ rows, 2 ≤ r.length) → (sourceNames rows).Nodup →
      (((make_mapping_dict .mapping (hdr :: rows) pks = .error .configError) ↔
        ∃ k ∈ pks, k ∉ rows.map (fun r => (r.get? 0).getD "")) ∧
       (∀ m, make_mapping_dict .mapping (hdr :: rows) pks = .ok m →
        ∀ k ∈ pks, k ∈ m.map Prod.snd))) := by
  refine ⟨?_, ?_, ?_⟩
  · intro hnd
    have h := mmLoop_format_iff rows [] (by simpa using hnd)
    rw [← h]
    simp only [make_mapping_dict]
    rcases hl : mmLoop [] rows with e | dict
    · exact Iff.rfl
    · cases mode
      · show (if (pks.all fun key => (List.map Prod.snd dict).contains key) = true
            then Except.ok dict else Except.error Err.configError) =
              Except.error Err.formatError ↔ Except.ok dict = Except.error Err.formatError
        by_cases hall : (pks.all fun key => (List.map Prod.snd dict).contains key) = true
        · rw [if_pos hall]
        · rw [if_neg hall]
          constructor
          · intro hx; simp at hx
          · intro hx; simp at hx
      · exact Iff.rfl
  · intro hlen
    have h := mmLoop_dup_iff rows [] hlen (by simp)
    simp only [List.map_nil, List.nil_append] at h
    rw [← h]
    simp only [make_mapping_dict]
    rcases hl : mmLoop [] rows with e | dict
    · exact Iff.rfl
    · cases mode
      · show (if (pks.all fun key => (List.map Prod.snd dict).contains key) = true
            then Except.ok dict else Except.error Err.configError) =
              Except.error Err.duplicateKey ↔ Except.ok dict = Except.error Err.duplicateKey
        by_cases hall : (pks.all fun key => (List.map Prod.snd dict).contains key) = true
        · rw [if_pos hall]
        · rw [if_neg hall]
          constructor
          · intro hx; simp at hx
          · intro hx; simp at hx
      · exact Iff.rfl
  · intro hlen hnd
    have hok := mmLoop_ok rows [] hlen (by simpa using hnd)
    have hvals :
        ((rows.map (fun r => ((r.get? 1).getD "", (r.get? 0).getD ""))).map Prod.snd) =
          rows.map (fun r => (r.get? 0).getD "") := by
      simp [List.map_map]
    constructor
    · simp only [make_mapping_dict, hok, List.nil_append]
      by_cases hall : pks.all
          (fun key => ((rows.map (fun r => ((r.get? 1).getD "", (r.get? 0).getD ""))).map
            Prod.snd).contains key)
      · rw [if_pos hall]
        simp only [List.all_eq_true] at hall
        constructor
        · intro hx; cases hx
        · intro ⟨k, hkmem, hknot⟩
          have := hall k hkmem
          rw [hvals] at this
          exact absurd (List.elem_iff.mp this) hknot
      · rw [if_neg hall]
        simp only [List.all_eq_true] at hall
        push_neg at hall
        obtain ⟨k, hkmem, hknot⟩ := hall
        refine ⟨fun _ => ⟨k, hkmem, ?_⟩, fun _ => rfl⟩
        intro hmem
        rw [hvals] at hknot
        exact hknot (List.elem_iff.mpr hmem)
    · intro m hm k hk
      simp only [make_mapping_dict, hok, List.nil_append] at hm
      split at hm
      · rename_i hall
        injection hm with hm
        subst hm
        simp only [List.all_eq_true] at hall
        exact List.elem_iff.mp (hall k hk)
      · cases hm

/-- Witness for C6 at a concrete valid mapping file: all rows are long enough,
source names are distinct, loading succeeds, and the configured primary key
`id` appears among the mapping's values. -/
theorem C6_witness :
    (∀ r ∈ [["id", "ID"], ["full_name", "Name"]], 2 ≤ List.length r) ∧
    (sourceNames [["id", "ID"], ["full_name", "Name"]]).Nodup ∧
    make_mapping_dict .mapping [["standard", "source"], ["id", "ID"], ["full_name", "Name"]]
      ["id"] = .ok [("ID", "id"), ("Name", "full_name")] ∧
    (∀ k ∈ ["id"], k ∈ [("ID", "id"), ("Name", "full_name")].map Prod.snd) := by
  refine ⟨by decide, by decide, by rfl, ?_⟩
  have h := (C6_make_mapping_dict .mapping ["id"] ["standard", "source"]
    [["id", "ID"], ["full_name", "Name"]]).2.2 (by decide) (by decide)
  exact h.2 _ (by rfl)

/-! ## read_source_csv: generic lemmas -/

theorem exFold_append {σ α : Type} {f : σ → α → Except Err σ} {s : σ} {l1 l2 : List α} :
    exFold f s (l1 ++ l2) =
      match exFold f s l1 with
      | .error e => .error e
      | .ok s' => exFold f s' l2 := by
  induction l1 generalizing s with
  | nil => simp [exFold]
  | cons a rest ih =>
    simp only [List.cons_append, exFold]
    rcases f s a with e | s'
    · rfl
    · exact ih

theorem keys_dinsert_of_isSome {d : Record} {k : String} (v : String)
    (h : (d.lookup k).isSome) : (dinsert d k v).map Prod.fst = d.map Prod.fst := by
  unfold dinsert
  rw [if_pos h, List.map_map]
  apply List.map_congr_left
  intro p _
  by_cases hp : p.1 = k
  · simp [hp]
  · simp [hp]

theorem mem_keys_dinsert {d : Record} {k v k' : String} :
    k' ∈ (dinsert d k v).map Prod.fst ↔ k' ∈ d.map Prod.fst ∨ k' = k := by
  by_cases h : (d.lookup k).isSome
  · rw [keys_dinsert_of_isSome v h]
    constructor
    · exact Or.inl
    · rintro (hm | rfl)
      · exact hm
      · exact lookup_isSome_iff.mp h
  · rw [dinsert_of_lookup_none v (Option.not_isSome_iff_eq_none.mp h)]
    simp

theorem keysNodup_dinsert {d : Record} {k v : String}
    (h : (d.map Prod.fst).Nodup) : ((dinsert d k v).map Prod.fst).Nodup := by
  by_cases hs : (d.lookup k).isSome
  · rw [keys_dinsert_of_isSome v hs]; exact h
  · rw [dinsert_of_lookup_none v (Option.not_isSome_iff_eq_none.mp hs)]
    simp only [List.map_append, List.map_cons, List.map_nil]
    refine List.Nodup.append h (List.nodup_singleton _) ?_
    intro a ha hb
    simp only [List.mem_singleton] at hb
    subst hb
    exact (by rwa [lookup_isSome_iff] at hs : a ∉ d.map Prod.fst) ha

theorem mem_dinsert {d : Record} {k v : String} {p : String × String}
    (h : p ∈ dinsert d k v) : p.2 = v ∨ p ∈ d := by
  unfold dinsert at h
  split at h
  · rcases List.mem_map.mp h with ⟨q, hq, hqp⟩
    by_cases hk : q.1 = k
    · rw [if_pos hk] at hqp
      exact Or.inl (by rw [← hqp])
    · rw [if_neg hk] at hqp
      exact Or.inr (hqp ▸ hq)
  · rcases List.mem_append.mp h with hm | hm
    · exact Or.inr hm
    · simp only [List.mem_singleton] at hm
      exact Or.inl (by rw [hm])

theorem lookup_map_update {d : Record} {k v k' : String} (h : k' ≠ k) :
    (d.map (fun p => if p.1 = k then (k, v) else p)).lookup k' = d.lookup k' := by
  induction d with
  | nil => rfl
  | cons p rest ih =>
    simp only [List.map_cons]
    by_cases hp : p.1 = k
    · rw [if_pos hp, lookup_cons, lookup_cons, if_neg h, if_neg (by rw [hp]; exact h)]
      exact ih
    · rw [if_neg hp, lookup_cons, lookup_cons]
      by_cases hk' : k' = p.1
      · rw [if_pos hk', if_pos hk']
      · rw [if_neg hk', if_neg hk']
        exact ih

theorem lookup_dinsert_other {d : Record} {k v k' : String} (h : k' ≠ k) :
    (dinsert d k v).lookup k' = d.lookup k' := by
  unfold dinsert
  split
  · exact lookup_map_update h
  · rcases hl : d.lookup k' with _ | w
    · rw [lookup_append_right hl, lookup_cons, if_neg h]
      rfl
    · rw [lookup_append_left (by simp [hl])]
      exact hl

/-! ## buildEntry structure lemmas -/

/-- Every stored value is a `normalize` image (translated or not). -/
theorem translateValue_normalized (t : List (String × String)) (v : String) :
    ∃ u, translateValue t v = normalize u := by
  unfold translateValue
  rcases t.lookup v with _ | w
  · exact ⟨v, rfl⟩
  · exact ⟨w, rfl⟩

theorem buildFields_values :
    ∀ (cols : List (String × Nat)) (init entry : Record)
      (t : List (String × String)) (row : List String),
    buildFields cols t row init = .ok entry →
    (∀ p ∈ init, ∃ u, p.2 = normalize u) →
    ∀ p ∈ entry, ∃ u, p.2 = normalize u := by
  intro cols
  induction cols with
  | nil =>
    intro init entry t row hok hinit
    simp only [buildFields, exFold] at hok
    injection hok with hok
    subst hok
    exact hinit
  | cons c rest ih =>
    intro init entry t row hok hinit
    simp only [buildFields, exFold] at hok
    rcases hr : row.get? c.2 with _ | value
    · rw [hr] at hok; cases hok
    · rw [hr] at hok
      refine ih (dinsert init c.1 (translateValue t value)) entry t row hok ?_
      intro p hp
      rcases mem_dinsert hp with hv | hm
      · rcases translateValue_normalized t value with ⟨u, hu⟩
        exact ⟨u, by rw [hv, hu]⟩
      · exact hinit p hm

theorem buildFields_keys :
    ∀ (cols : List (String × Nat)) (init entry : Record)
      (t : List (String × String)) (row : List String),
    buildFields cols t row init = .ok entry →
    ∀ k ∈ entry.map Prod.fst, k ∈ init.map Prod.fst ∨ k ∈ cols.map Prod.fst := by
  intro cols
  induction cols with
  | nil =>
    intro init entry t row hok k hk
    simp only [buildFields, exFold] at hok
    injection hok with hok
    subst hok
    exact Or.inl hk
  | cons c rest ih =>
    intro init entry t row hok k hk
    simp only [buildFields, exFold] at hok
    rcases hr : row.get? c.2 with _ | value
    · rw [hr] at hok; cases hok
    · rw [hr] at hok
      rcases ih (dinsert init c.1 (translateValue t value)) entry t row hok k hk with hm | hm
      · rcases mem_keys_dinsert.mp hm with hm' | rfl
        · exact Or.inl hm'
        · exact Or.inr (by simp)
      · exact Or.inr (List.mem_cons_of_mem _ hm)

theorem buildFields_keysNodup :
    ∀ (cols : List (String × Nat)) (init entry : Record)
      (t : List (String × String)) (row : List String),
    buildFields cols t row init = .ok entry →
    (init.map Prod.fst).Nodup →
    (entry.map Prod.fst).Nodup := by
  intro cols
  induction cols with
  | nil =>
    intro init entry t row hok hinit
    simp only [buildFields, exFold] at hok
    injection hok with hok
    subst hok
    exact hinit
  | cons c rest ih =>
    intro init entry t row hok hinit
    simp only [buildFields, exFold] at hok
    rcases hr : row.get? c.2 with _ | value
    · rw [hr] at hok; cases hok
    · rw [hr] at hok
      exact ih _ entry t row hok (keysNodup_dinsert hinit)

theorem buildFields_lookup_of_not_col :
    ∀ (cols : List (String × Nat)) (init entry : Record)
      (t : List (String × String)) (row : List String) (k : String),
    buildFields cols t row init = .ok entry →
    (∀ c ∈ cols, c.1 ≠ k) →
    entry.lookup k = init.lookup k := by
  intro cols
  induction cols with
  | nil =>
    intro init entry t row k hok _
    simp only [buildFields, exFold] at hok
    injection hok with hok
    subst hok
    rfl
  | cons c rest ih =>
    intro init entry t row k hok hnc
    simp only [buildFields, exFold] at hok
    rcases hr : row.get? c.2 with _ | value
    · rw [hr] at hok; cases hok
    · rw [hr] at hok
      rw [ih _ entry t row k hok (fun c' hc' => hnc c' (List.mem_cons_of_mem _ hc'))]
      exact lookup_dinsert_other (fun h => hnc c (List.mem_cons_self _ _) h.symm)

/-- Structure of a successfully built record: the primary key is stored under
the reserved name (provided no retained column is called `primary_key`), all
keys come from the reserved name or the retained columns, all values are
normalize images and the key set is duplicate-free. -/
theorem buildEntry_ok {info : HeaderInfo} {t : List (String × String)}
    {row : List String} {pk : String} {entry : Record}
    (hok : buildEntry info t row = .ok (pk, entry)) :
    (buildPk info.pk_indices row = .ok pk) ∧
    (∀ k ∈ entry.map Prod.fst, k = "primary_key" ∨ k ∈ info.cols.map Prod.fst) ∧
    (∀ p ∈ entry, ∃ u, p.2 = normalize u) ∧
    ((entry.map Prod.fst).Nodup) ∧
    ((∀ c ∈ info.cols, c.1 ≠ "primary_key") → entry.lookup "primary_key" = some (normalize pk)) := by
  unfold buildEntry at hok
  rcases hpk : buildPk info.pk_indices row with e | pk'
  · simp only [hpk] at hok
    cases hok
  · simp only [hpk] at hok
    rcases hbf : buildFields info.cols t row [("primary_key", normalize pk')] with e | entry'
    · simp only [hbf] at hok
      cases hok
    · simp only [hbf, Except.ok.injEq, Prod.mk.injEq] at hok
      obtain ⟨rfl, rfl⟩ := hok
      refine ⟨rfl, ?_, ?_, ?_, ?_⟩
      · intro k hk
        rcases buildFields_keys _ _ _ _ _ hbf k hk with hm | hm
        · left
          simpa using hm
        · right
          exact hm
      · refine buildFields_values _ _ _ _ _ hbf ?_
        intro p hp
        simp only [List.mem_singleton] at hp
        subst hp
        exact ⟨pk', rfl⟩
      · exact buildFields_keysNodup _ _ _ _ _ hbf (by simp)
      · intro hcols
        rw [buildFields_lookup_of_not_col _ _ _ _ _ _ hbf hcols, lookup_cons, if_pos rfl]

/-! ## Claim C5: a filtered row contributes to nothing -/

/-- **C5.** For every data row of a source, if the filter decides to drop it
(some rule's field has a record value equal to the rule's forbidden value, and
the whole rule loop evaluates without error to `ignore = true`), the row is
dropped entirely: the row leaves the normalizer's state — including the
seen-keys set used for later duplicate detection — untouched, and running the
normalizer with the row gives exactly the same three outputs as running it
without the row. -/
theorem C5_filtered_row_dropped (mapping translations flist : List (String × String))
    (pks : List String) (headers row : List String) (pre post : List (List String))
    (pk : String) (entry : Record)
    (hbuild : buildEntry (processHeaders mapping pks headers) translations row = .ok (pk, entry))
    (hmatch : filterCheck flist entry = .ok true) :
    (∀ s : ReadState,
      readRow (processHeaders mapping pks headers) translations flist s row = .ok s) ∧
    read_source_csv mapping translations flist (headers :: (pre ++ row :: post)) pks =
      read_source_csv mapping translations flist (headers :: (pre ++ post)) pks := by
  have hstep : ∀ s : ReadState,
      readRow (processHeaders mapping pks headers) translations flist s row = .ok s := by
    intro s
    unfold readRow
    simp only [hbuild, hmatch]
    rfl
  refine ⟨hstep, ?_⟩
  simp only [read_source_csv]
  rw [exFold_append, exFold_append]
  rcases h : exFold (readRow (processHeaders mapping pks headers) translations flist)
      ⟨[], [], [], []⟩ pre with e | s
  · rfl
  · simp only [exFold, hstep s]

/-- Witness for C5: a concrete row whose normalized `full_name` is `"test"`
is dropped by the rule `(full_name, "test")`, and the normalizer returns the
same outputs with and without the row. -/
theorem C5_witness :
    buildEntry (processHeaders [("ID", "id"), ("Name", "full_name")] ["id"] ["ID", "Name"])
        [] ["42", " TEST "] = .ok ("42 ", [("primary_key", "42"), ("full_name", "test")]) ∧
    filterCheck [("full_name", "test")] [("primary_key", "42"), ("full_name", "test")] =
      .ok true ∧
    read_source_csv [("ID", "id"), ("Name", "full_name")] [] [("full_name", "test")]
        [["ID", "Name"], ["42", " TEST "], ["7", "Zed"]] ["id"] =
      read_source_csv [("ID", "id"), ("Name", "full_name")] [] [("full_name", "test")]
        [["ID", "Name"], ["7", "Zed"]] ["id"] := by
  refine ⟨by rfl, by rfl, ?_⟩
  have h := C5_filtered_row_dropped [("ID", "id"), ("Name", "full_name")] [] [("full_name", "test")]
    ["id"] ["ID", "Name"] ["42", " TEST "] [] [["7", "Zed"]]
    "42 " [("primary_key", "42"), ("full_name", "test")] (by rfl) (by rfl)
  exact h.2

/-! ## Claim C9: a filter rule naming an unknown field aborts the run -/

theorem filterCheck_error {entry : Record} {f v : String} :
    ∀ (flist : List (String × String)) (b : Bool),
    (f, v) ∈ flist → entry.lookup f = none →
    exFold (fun ignore p =>
      match entry.lookup p.1 with
      | some w => .ok (ignore || w == p.2)
      | none => .error .keyError) b flist = .error .keyError := by
  intro flist
  induction flist with
  | nil => intro b h _; cases h
  | cons q rest ih =>
    intro b hmem hnone
    simp only [exFold]
    rcases hl : entry.lookup q.1 with _ | w
    · rfl
    · rcases List.mem_cons.mp hmem with heq | hmem'
      · rw [← heq] at hl
        rw [hnone] at hl
        cases hl
      · exact ih _ hmem' hnone

/-- **C9.** If the filter rule list contains a rule whose field name is
neither `primary_key` nor one of the retained mapped standard field names,
then for every source file whose first data row is well-formed enough to be
built into a record, the normalizer raises the missing-field lookup error
(`KeyError` on `entry_dict[fieldname]`) instead of ignoring the rule, so no
outputs are produced. -/
theorem C9_unknown_filter_field (mapping translations flist : List (String × String))
    (pks : List String) (headers row : List String) (rows : List (List String))
    (f v : String) (pk : String) (entry : Record)
    (hrule : (f, v) ∈ flist)
    (hnotpk : f ≠ "primary_key")
    (hnotcol : ∀ p ∈ (processHeaders mapping pks headers).cols, p.1 ≠ f)
    (hbuild : buildEntry (processHeaders mapping pks headers) translations row = .ok (pk, entry)) :
    read_source_csv mapping translations flist (headers :: row :: rows) pks =
      .error .keyError := by
  have hkeys := (buildEntry_ok hbuild).2.1
  have hnone : entry.lookup f = none := by
    rw [lookup_eq_none_iff]
    intro hmem
    rcases hkeys f hmem with rfl | hm
    · exact hnotpk rfl
    · rcases List.mem_map.mp hm with ⟨p, hp, hpf⟩
      exact hnotcol p hp hpf
  have hfc : filterCheck flist entry = .error .keyError :=
    filterCheck_error flist false hrule hnone
  have hrow : readRow (processHeaders mapping pks headers) translations flist
      ⟨[], [], [], []⟩ row = .error .keyError := by
    unfold readRow
    simp only [hbuild, hfc]
  simp only [read_source_csv, exFold, hrow]

/-- Witness for C9: the rule `(nope, x)` names no retained field, so a
one-row source aborts with the key error. -/
theorem C9_witness :
    ("nope", "x") ∈ [("nope", "x")] ∧
    read_source_csv [("ID", "id"), ("Name", "full_name")] [] [("nope", "x")]
      [["ID", "Name"], ["1", "A"]] ["id"] = .error .keyError := by
  refine ⟨List.mem_cons_self _ _, ?_⟩
  exact C9_unknown_filter_field [("ID", "id"), ("Name", "full_name")] [] [("nope", "x")]
    ["id"] ["ID", "Name"] ["1", "A"] [] "nope" "x"
    "1 " [("primary_key", "1"), ("full_name", "a")]
    (List.mem_cons_self _ _) (by decide) (by decide) (by rfl)

/-! ## Claim C10: rules whose value has uppercase or boundary whitespace never fire -/

/-- The claim's reading of "contains an uppercase letter". -/
def hasUpper (s : String) : Bool := s.data.any Char.isUpper

/-- The claim's reading of "has leading or trailing whitespace". -/
def boundaryWs (s : String) : Bool :=
  (match s.data.head? with
   | some c => c.isWhitespace
   | none => false) ||
  (match s.data.getLast? with
   | some c => c.isWhitespace
   | none => false)

theorem isUpper_toLower (c : Char) : (Char.toLower c).isUpper = false := by
  show (let n := c.toNat; if n ≥ 65 ∧ n ≤ 90 then Char.ofNat (n + 32) else c).isUpper = false
  dsimp only
  by_cases h : c.toNat ≥ 65 ∧ c.toNat ≤ 90
  · rw [if_pos h]
    obtain ⟨h1, h2⟩ := h
    set m := c.toNat + 32 with hm
    have hb1 : 97 ≤ m := by omega
    have hb2 : m ≤ 122 := by omega
    interval_cases m <;> decide
  · rw [if_neg h]
    simp only [Char.isUpper]
    rw [Bool.and_eq_false_iff]
    by_cases h1 : c.val ≥ 65
    · right
      have ha : (65 : UInt32).toNat ≤ c.val.toNat := h1
      simp only [decide_eq_false_iff_not]
      intro hc
      have hb : c.val.toNat ≤ (90 : UInt32).toNat := hc
      have hv : c.toNat = c.val.toNat := rfl
      have h65 : (65 : UInt32).toNat = 65 := rfl
      have h90 : (90 : UInt32).toNat = 90 := rfl
      omega
    · left
      simp only [decide_eq_false_iff_not]
      exact h1

theorem mem_pyStrip {l : List Char} {c : Char} (h : c ∈ pyStrip l) : c ∈ l := by
  unfold pyStrip at h
  rw [List.mem_reverse] at h
  have h1 := (List.dropWhile_suffix Char.isWhitespace).subset h
  rw [List.mem_reverse] at h1
  exact (List.dropWhile_suffix Char.isWhitespace).subset h1

theorem head?_dropWhile {p : Char → Bool} :
    ∀ {l : List Char} {c : Char}, (l.dropWhile p).head? = some c → p c = false := by
  intro l
  induction l with
  | nil => intro c h; cases h
  | cons a rest ih =>
    intro c h
    rw [List.dropWhile_cons] at h
    split at h
    · exact ih h
    · rename_i hp
      injection h with h
      subst h
      simpa using hp

theorem pyStrip_head? {l : List Char} {c : Char} (h : (pyStrip l).head? = some c) :
    c.isWhitespace = false := by
  unfold pyStrip at h
  rw [List.head?_reverse] at h
  -- h : getLast? of (dropWhile over the reversed dropWhile) = some c
  set Z := (l.dropWhile Char.isWhitespace).reverse with hZ
  obtain ⟨t, ht⟩ := List.dropWhile_suffix (l := Z) Char.isWhitespace
  have hne : Z.dropWhile Char.isWhitespace ≠ [] := by
    intro hnil
    rw [hnil] at h
    cases h
  have : Z.getLast? = some c := by
    rw [← ht, List.getLast?_append_of_ne_nil _ hne]
    exact h
  rw [hZ, List.getLast?_reverse] at this
  exact head?_dropWhile this

theorem pyStrip_getLast? {l : List Char} {c : Char} (h : (pyStrip l).getLast? = some c) :
    c.isWhitespace = false := by
  unfold pyStrip at h
  rw [List.getLast?_reverse] at h
  exact head?_dropWhile h

theorem hasUpper_normalize (u : String) : hasUpper (normalize u) = false := by
  unfold hasUpper normalize
  rw [List.any_eq_false]
  intro c hc
  have := mem_pyStrip hc
  rcases List.mem_map.mp this with ⟨c', _, rfl⟩
  simp [isUpper_toLower c']

theorem boundaryWs_normalize (u : String) : boundaryWs (normalize u) = false := by
  unfold boundaryWs normalize
  rw [Bool.or_eq_false_iff]
  constructor
  · rcases hh : (String.mk (pyStrip (u.data.map Char.toLower))).data.head? with _ | c
    · rfl
    · exact pyStrip_head? hh
  · rcases hh : (String.mk (pyStrip (u.data.map Char.toLower))).data.getLast? with _ | c
    · rfl
    · exact pyStrip_getLast? hh

/-- **C10.** Filter rule values are compared verbatim as read from the filter
file, while every record value they are compared against has been lowercased
and trimmed; therefore a filter rule `(f, v)` whose forbidden value `v`
contains an uppercase letter or leading/trailing whitespace can never match a
record value: its comparison is false on every built record, and the rule's
presence in the filter list does not change the filter decision for any row
whose record carries the rule's field. -/
theorem C10_unmatchable_filter_value (ffile : List (List String))
    (flist pre post : List (String × String)) (f v : String)
    (info : HeaderInfo) (translations : List (String × String))
    (row : List String) (pk : String) (entry : Record) (w : String)
    (hfilt : make_filtering_list ffile = .ok flist)
    (hsplit : flist = pre ++ (f, v) :: post)
    (hv : hasUpper v = true ∨ boundaryWs v = true)
    (hbuild : buildEntry info translations row = .ok (pk, entry))
    (hlook : entry.lookup f = some w) :
    (w == v) = false ∧
    filterCheck flist entry = filterCheck (pre ++ post) entry := by
  have hval : ∃ u, w = normalize u := (buildEntry_ok hbuild).2.2.1 (f, w) (lookup_mem hlook)
  obtain ⟨u, rfl⟩ := hval
  have hne : (normalize u == v) = false := by
    rw [beq_eq_false_iff_ne]
    intro he
    rcases hv with hv | hv
    · rw [← he] at hv
      rw [hasUpper_normalize] at hv
      cases hv
    · rw [← he] at hv
      rw [boundaryWs_normalize] at hv
      cases hv
  refine ⟨hne, ?_⟩
  subst hsplit
  unfold filterCheck
  have hskip : ∀ (pre' : List (String × String)) (b : Bool),
      exFold (fun ignore p =>
        match entry.lookup p.1 with
        | some x => .ok (ignore || x == p.2)
        | none => .error .keyError) b (pre' ++ (f, v) :: post) =
      exFold (fun ignore p =>
        match entry.lookup p.1 with
        | some x => .ok (ignore || x == p.2)
        | none => .error .keyError) b (pre' ++ post) := by
    intro pre'
    induction pre' with
    | nil =>
      intro b
      simp only [List.nil_append, exFold, hlook, hne, Bool.or_false]
    | cons q rest ih =>
      intro b
      simp only [List.cons_append, exFold]
      rcases entry.lookup q.1 with _ | x
      · rfl
      · exact ih _
  exact hskip pre false

/-- Witness for C10: the rule value `" TEST"` (uppercase and leading space)
can never equal a normalized record value, and dropping the rule leaves the
filter decision unchanged. -/
theorem C10_witness :
    make_filtering_list [["field", "value"], ["full_name", " TEST"]] =
      .ok [("full_name", " TEST")] ∧
    (("x" == " TEST") = false ∧
      filterCheck [("full_name", " TEST")]
          [("primary_key", "1"), ("full_name", "x")] =
        filterCheck [] [("primary_key", "1"), ("full_name", "x")]) := by
  refine ⟨by rfl, ?_⟩
  exact C10_unmatchable_filter_value [["field", "value"], ["full_name", " TEST"]]
    [("full_name", " TEST")] [] [] "full_name" " TEST"
    (processHeaders [("ID", "id"), ("Name", "full_name")] ["id"] ["ID", "Name"]) []
    ["1", "x"] "1 " [("primary_key", "1"), ("full_name", "x")] "x"
    (by rfl) (by rfl) (by right; rfl) (by rfl) (by rfl)

/-! ## Claim C1: index uniqueness and quarantine completeness -/

theorem insertByPk_perm (x : Record) : ∀ (l : List Record),
    List.Perm (insertByPk x l) (x :: l) := by
  intro l
  induction l with
  | nil => exact List.Perm.refl _
  | cons y rest ih =>
    simp only [insertByPk]
    by_cases h : strLe ((pkOf y).getD "") ((pkOf x).getD "") = true
    · rw [if_pos h]
      exact (ih.cons y).trans (List.Perm.swap x y rest)
    · rw [if_neg h]

theorem sortByPk_foldl_perm :
    ∀ (l acc : List Record),
    List.Perm (l.foldl (fun acc x => insertByPk x acc) acc) (acc ++ l) := by
  intro l
  induction l with
  | nil =>
    intro acc
    simp
  | cons x rest ih =>
    intro acc
    simp only [List.foldl_cons]
    refine ((ih (insertByPk x acc)).trans ?_)
    refine (List.Perm.append_right rest (insertByPk_perm x acc)).trans ?_
    exact (List.perm_middle).symm

theorem sortByPk_perm (l : List Record) : List.Perm (sortByPk l) l := by
  simpa using sortByPk_foldl_perm l []

theorem pkFilterE_ok :
    ∀ (l : List Record) (pk : String),
    (∀ x ∈ l, (x.lookup "primary_key").isSome) →
    pkFilterE l pk = .ok (l.filter (fun x => x.lookup "primary_key" == some pk)) := by
  intro l
  induction l with
  | nil => intro pk _; rfl
  | cons x rest ih =>
    intro pk hall
    have hx := hall x (List.mem_cons_self _ _)
    rcases hl : x.lookup "primary_key" with _ | q
    · rw [hl] at hx; cases hx
    · simp only [pkFilterE, hl, ih pk (fun y hy => hall y (List.mem_cons_of_mem _ hy))]
      rw [List.filter_cons]
      by_cases hq : q = pk
      · subst hq
        simp [hl]
      · simp [hl, hq]

theorem removeFirst_ok :
    ∀ (l : List Record) (x : Record),
    x ∈ l → recordEq x x = true →
    (∀ y ∈ l, recordEq y x = true → y = x) →
    ∃ l1 l2, l = l1 ++ x :: l2 ∧ removeFirst l x = .ok (l1 ++ l2) := by
  intro l
  induction l with
  | nil => intro x hx _ _; cases hx
  | cons y rest ih =>
    intro x hx hrefl huniq
    by_cases hy : recordEq y x = true
    · have hyx : y = x := huniq y (List.mem_cons_self _ _) hy
      subst hyx
      exact ⟨[], rest, rfl, by simp [removeFirst, hy]⟩
    · have hyx : y ≠ x := fun h => hy (h ▸ hrefl)
      have hx' : x ∈ rest := by
        rcases List.mem_cons.mp hx with h | h
        · exact absurd h (fun hh => hyx hh.symm)
        · exact h
      obtain ⟨l1, l2, heq, hrm⟩ :=
        ih x hx' hrefl (fun z hz => huniq z (List.mem_cons_of_mem _ hz))
      refine ⟨y :: l1, l2, by rw [List.cons_append, heq], ?_⟩
      simp only [removeFirst, hy, hrm]
      rfl

theorem recordEq_pk {y x : Record} {npk : String} (h : recordEq y x = true)
    (hx : x.lookup "primary_key" = some npk) : y.lookup "primary_key" = some npk := by
  simp only [recordEq, Bool.and_eq_true, List.all_eq_true] at h
  have := h.2 ("primary_key", npk) (lookup_mem hx)
  simpa using this

theorem processHeaders_foldl_cols (mapping : List (String × String)) (pks : List String) :
    ∀ (l : List (Nat × String)) (st : HeaderInfo),
    (∀ c ∈ st.cols, c.1 ∈ mapping.map Prod.snd) →
    ∀ c ∈ (l.foldl (fun info p =>
        match mapping.lookup p.2 with
        | some std =>
          if std ∈ pks then { info with pk_indices := info.pk_indices ++ [p.1] }
          else { info with cols := info.cols ++ [(std, p.1)] }
        | none => info) st).cols, c.1 ∈ mapping.map Prod.snd := by
  intro l
  induction l with
  | nil => intro st hst; exact hst
  | cons a rest ih =>
    intro st hst
    simp only [List.foldl_cons]
    rcases hm : mapping.lookup a.2 with _ | std
    · simp only [hm]
      exact ih st hst
    · simp only [hm]
      by_cases hstd : std ∈ pks
      · rw [if_pos hstd]
        exact ih _ hst
      · rw [if_neg hstd]
        refine ih _ ?_
        intro c' hc'
        rcases List.mem_append.mp hc' with hm' | hm'
        · exact hst c' hm'
        · simp only [List.mem_singleton] at hm'
          subst hm'
          exact List.mem_map.mpr ⟨(a.2, std), lookup_mem hm, rfl⟩

theorem processHeaders_cols_values (mapping : List (String × String)) (pks : List String)
    (headers : List String) :
    ∀ c ∈ (processHeaders mapping pks headers).cols, c.1 ∈ mapping.map Prod.snd := by
  unfold processHeaders
  exact processHeaders_foldl_cols mapping pks headers.enum ⟨[], []⟩ (by simp)

/-- Invariant maintained by the normalizer's row loop: every index entry's
stored key is a seen key; index keys are pairwise distinct; index records have
duplicate-free field sets; every quarantined record's key is seen; and no
quarantined record's key survives in the index. -/
structure ReadInv (s : ReadState) : Prop where
  pk_seen : ∀ e ∈ s.entries, ∃ x, pkOf e = some x ∧ x ∈ s.seen_pks
  nd : (s.entries.map pkOf).Nodup
  keysnd : ∀ e ∈ s.entries, (e.map Prod.fst).Nodup
  dup_seen : ∀ d ∈ s.duplicates, ∃ x, pkOf d = some x ∧ x ∈ s.seen_pks
  dup_out : ∀ d ∈ s.duplicates, ∀ e ∈ s.entries, pkOf d ≠ pkOf e

theorem readInv_init : ReadInv ⟨[], [], [], []⟩ := by
  refine ⟨?_, ?_, ?_, ?_, ?_⟩
  · intro e he; cases he
  · exact List.nodup_nil
  · intro e he; cases he
  · intro e he; cases he
  · intro d hd; cases hd

/-- The row loop preserves the invariant (provided the reserved field name is
not used by a retained column, so a record's stored key is its composite
key). -/
theorem readRow_inv {info : HeaderInfo} {t fl : List (String × String)}
    {s s' : ReadState} {row : List String}
    (hcols : ∀ c ∈ info.cols, c.1 ≠ "primary_key")
    (hinv : ReadInv s)
    (hok : readRow info t fl s row = .ok s') :
    ReadInv s' := by
  unfold readRow at hok
  rcases hb : buildEntry info t row with e | pe
  · simp only [hb] at hok
    cases hok
  obtain ⟨pk, entry⟩ := pe
  simp only [hb] at hok
  rcases hfc : filterCheck fl entry with e | ignore
  · simp only [hfc] at hok
    cases hok
  simp only [hfc] at hok
  have hentry_pk : entry.lookup "primary_key" = some (normalize pk) :=
    (buildEntry_ok hb).2.2.2.2 hcols
  have hpke : pkOf entry = some (normalize pk) := hentry_pk
  have hentry_keys : (entry.map Prod.fst).Nodup := (buildEntry_ok hb).2.2.2.1
  cases ignore with
  | true =>
    rw [if_pos rfl] at hok
    injection hok with hok
    subst hok
    exact hinv
  | false =>
    rw [if_neg (by simp)] at hok
    by_cases hbl : isBlank pk = true
    · rw [if_pos hbl] at hok
      injection hok with hok
      subst hok
      exact ⟨hinv.pk_seen, hinv.nd, hinv.keysnd, hinv.dup_seen, hinv.dup_out⟩
    · rw [if_neg hbl] at hok
      have hall : ∀ x ∈ s.entries, (x.lookup "primary_key").isSome := by
        intro x hx
        obtain ⟨v, hv, _⟩ := hinv.pk_seen x hx
        unfold pkOf at hv
        simp [hv]
      by_cases hseen : s.seen_pks.contains (normalize pk) = true
      · rw [if_pos hseen] at hok
        have hmem_seen : normalize pk ∈ s.seen_pks := List.elem_iff.mp hseen
        rw [pkFilterE_ok s.entries (normalize pk) hall] at hok
        rcases hfil : s.entries.filter
            (fun x => x.lookup "primary_key" == some (normalize pk)) with _ | ⟨item, rest2⟩
        · rw [hfil] at hok
          injection hok with hok
          subst hok
          have hout : ∀ e ∈ s.entries, pkOf e ≠ some (normalize pk) := by
            intro e he hpe
            have : e ∈ s.entries.filter
                (fun x => x.lookup "primary_key" == some (normalize pk)) :=
              List.mem_filter.mpr ⟨he, by unfold pkOf at hpe; simp [hpe]⟩
            rw [hfil] at this
            cases this
          refine ⟨hinv.pk_seen, hinv.nd, hinv.keysnd, ?_, ?_⟩
          · intro d hd
            rcases List.mem_append.mp hd with hd | hd
            · exact hinv.dup_seen d hd
            · simp only [List.mem_singleton] at hd
              subst hd
              exact ⟨normalize pk, hentry_pk, hmem_seen⟩
          · intro d hd e he
            rcases List.mem_append.mp hd with hd | hd
            · exact hinv.dup_out d hd e he
            · simp only [List.mem_singleton] at hd
              subst hd
              rw [hpke]
              exact fun h => hout e he h.symm
        · rcases rest2 with _ | ⟨item2, rest3⟩
          · -- exactly one resident record with this key: quarantine it
            rw [hfil] at hok
            have hitem_filter : item ∈ s.entries.filter
                (fun x => x.lookup "primary_key" == some (normalize pk)) := by
              rw [hfil]; exact List.mem_cons_self _ _
            have hitem_mem : item ∈ s.entries := (List.mem_filter.mp hitem_filter).1
            have hitem_pk : item.lookup "primary_key" = some (normalize pk) := by
              have := (List.mem_filter.mp hitem_filter).2
              simpa using this
            have huniq : ∀ y ∈ s.entries,
                (y.lookup "primary_key" == some (normalize pk)) = true → y = item := by
              intro y hy hpy
              have : y ∈ s.entries.filter
                  (fun x => x.lookup "primary_key" == some (normalize pk)) :=
                List.mem_filter.mpr ⟨hy, hpy⟩
              rw [hfil] at this
              simpa using this
            have hrefl : recordEq item item = true :=
              recordEq_refl (hinv.keysnd item hitem_mem)
            have huniq' : ∀ y ∈ s.entries, recordEq y item = true → y = item := by
              intro y hy hreq
              exact huniq y hy (by rw [recordEq_pk hreq hitem_pk]; simp)
            obtain ⟨l1, l2, hsplit, hrm⟩ := removeFirst_ok s.entries item hitem_mem hrefl huniq'
            have hpki : pkOf item = some (normalize pk) := hitem_pk
            simp only [hrm] at hok
            injection hok with hok
            subst hok
            -- facts about the decomposition
            have hnd12 : ((l1 ++ l2).map pkOf).Nodup ∧ ∀ e ∈ l1 ++ l2, pkOf e ≠ pkOf item := by
              have h0 := hinv.nd
              rw [hsplit] at h0
              simp only [List.map_append, List.map_cons] at h0
              rw [List.nodup_append] at h0
              obtain ⟨hl1, hl2cons, hdisj⟩ := h0
              rw [List.nodup_cons] at hl2cons
              constructor
              · simp only [List.map_append]
                rw [List.nodup_append]
                refine ⟨hl1, hl2cons.2, ?_⟩
                intro a ha hb2
                exact hdisj ha (List.mem_cons_of_mem _ hb2)
              · intro e he hpe
                rcases List.mem_append.mp he with he | he
                · exact hdisj (hpe ▸ List.mem_map_of_mem pkOf he) (List.mem_cons_self _ _)
                · exact hl2cons.1 (hpe ▸ List.mem_map_of_mem pkOf he)
            have hsub : ∀ e ∈ l1 ++ l2, e ∈ s.entries := by
              intro e he
              rw [hsplit]
              rcases List.mem_append.mp he with he | he
              · exact List.mem_append.mpr (Or.inl he)
              · exact List.mem_append.mpr (Or.inr (List.mem_cons_of_mem _ he))
            refine ⟨?_, hnd12.1, ?_, ?_, ?_⟩
            · intro e he
              exact hinv.pk_seen e (hsub e he)
            · intro e he
              exact hinv.keysnd e (hsub e he)
            · intro d hd
              rcases List.mem_append.mp hd with hd | hd
              · rcases List.mem_append.mp hd with hd | hd
                · exact hinv.dup_seen d hd
                · simp only [List.mem_singleton] at hd
                  subst hd
                  exact ⟨normalize pk, hentry_pk, hmem_seen⟩
              · simp only [List.mem_singleton] at hd
                subst hd
                exact ⟨normalize pk, hitem_pk, hmem_seen⟩
            · intro d hd e he
              have hepk : pkOf e ≠ pkOf item := hnd12.2 e he
              rcases List.mem_append.mp hd with hd | hd
              · rcases List.mem_append.mp hd with hd | hd
                · exact hinv.dup_out d hd e (hsub e he)
                · simp only [List.mem_singleton] at hd
                  subst hd
                  rw [hpke]
                  intro h
                  exact hepk (by rw [← h, hpki])
              · simp only [List.mem_singleton] at hd
                subst hd
                exact fun h => hepk h.symm
          · rw [hfil] at hok
            cases hok
      · rw [if_neg hseen] at hok
        injection hok with hok
        subst hok
        have hfresh : normalize pk ∉ s.seen_pks := fun h => hseen (List.elem_iff.mpr h)
        refine ⟨?_, ?_, ?_, ?_, ?_⟩
        · intro e he
          rcases List.mem_append.mp he with he | he
          · obtain ⟨v, hv, hvs⟩ := hinv.pk_seen e he
            exact ⟨v, hv, List.mem_append.mpr (Or.inl hvs)⟩
          · simp only [List.mem_singleton] at he
            subst he
            exact ⟨normalize pk, hentry_pk, List.mem_append.mpr (Or.inr (List.mem_singleton.mpr rfl))⟩
        · simp only [List.map_append, List.map_cons, List.map_nil]
          rw [List.nodup_append]
          refine ⟨hinv.nd, List.nodup_singleton _, ?_⟩
          intro a ha hb2
          simp only [List.mem_singleton] at hb2
          rcases List.mem_map.mp ha with ⟨e, he, hpe⟩
          obtain ⟨v, hv, hvs⟩ := hinv.pk_seen e he
          have hv2 : some v = some (normalize pk) := by
            rw [← hv, hpe, hb2, hpke]
          injection hv2 with hv2
          exact hfresh (hv2 ▸ hvs)
        · intro e he
          rcases List.mem_append.mp he with he | he
          · exact hinv.keysnd e he
          · simp only [List.mem_singleton] at he
            subst he
            exact hentry_keys
        · intro d hd
          obtain ⟨v, hv, hvs⟩ := hinv.dup_seen d hd
          exact ⟨v, hv, List.mem_append.mpr (Or.inl hvs)⟩
        · intro d hd e he
          rcases List.mem_append.mp he with he | he
          · exact hinv.dup_out d hd e he
          · simp only [List.mem_singleton] at he
            subst he
            obtain ⟨v, hv, hvs⟩ := hinv.dup_seen d hd
            rw [hv, hpke]
            intro h
            injection h with h
            exact hfresh (h ▸ hvs)

theorem exFold_readRow_inv {info : HeaderInfo} {t fl : List (String × String)}
    (hcols : ∀ c ∈ info.cols, c.1 ≠ "primary_key") :
    ∀ (rows : List (List String)) (s s' : ReadState),
    ReadInv s → exFold (readRow info t fl) s rows = .ok s' → ReadInv s' := by
  intro rows
  induction rows with
  | nil =>
    intro s s' hinv hok
    simp only [exFold] at hok
    injection hok with hok
    subst hok
    exact hinv
  | cons r rest ih =>
    intro s s' hinv hok
    simp only [exFold] at hok
    rcases hr : readRow info t fl s r with e | s1
    · rw [hr] at hok
      cases hok
    · rw [hr] at hok
      exact ih s1 s' (readRow_inv hcols hinv hr) hok

/-- **C1.** For every source file the normalizer reads successfully, the
returned index (`entries`) contains no two records with equal composite
primary keys, and every key on a record of the `duplicates` list has no
surviving record in the index — first-seen and all later collisions are
quarantined together.  (Hypothesis: the mapping does not map any source
column to the reserved standard name `primary_key`, which would overwrite
the stored composite key.) -/
theorem C1_index_unique_and_quarantined
    (mapping translations flist : List (String × String))
    (pks : List String) (headers : List String) (rows : List (List String))
    (entries keyless dups : List Record)
    (hreserved : ∀ p ∈ mapping, p.2 ≠ "primary_key")
    (hres : read_source_csv mapping translations flist (headers :: rows) pks =
      .ok (entries, keyless, dups)) :
    (entries.map pkOf).Nodup ∧
    (∀ d ∈ dups, ∀ e ∈ entries, pkOf d ≠ pkOf e) := by
  have hcols : ∀ c ∈ (processHeaders mapping pks headers).cols, c.1 ≠ "primary_key" := by
    intro c hc hceq
    have hmem := processHeaders_cols_values mapping pks headers c hc
    rcases List.mem_map.mp hmem with ⟨p, hp, hpc⟩
    exact hreserved p hp (by rw [hpc, hceq])
  simp only [read_source_csv] at hres
  rcases hf : exFold (readRow (processHeaders mapping pks headers) translations flist)
      ⟨[], [], [], []⟩ rows with e | s
  · rw [hf] at hres
    cases hres
  · rw [hf] at hres
    have hres2 : (sortByPk s.entries, s.missing_pks, sortByPk s.duplicates) =
        (entries, keyless, dups) := by
      injection hres
    injection hres2 with h1 h23
    injection h23 with h2 h3
    subst h1
    subst h3
    have hinv := exFold_readRow_inv hcols rows _ s readInv_init hf
    have hpe : List.Perm (sortByPk s.entries) s.entries := sortByPk_perm s.entries
    have hpd : List.Perm (sortByPk s.duplicates) s.duplicates := sortByPk_perm s.duplicates
    constructor
    · exact ((hpe.map pkOf).nodup_iff).mpr hinv.nd
    · intro d hd e he
      exact hinv.dup_out d (hpd.mem_iff.mp hd) e (hpe.mem_iff.mp he)

/-- Witness for C1: a source with two colliding rows under key `42` — both
collisions are quarantined, the surviving index holds only key `7`, and the
conclusions hold at this output. -/
theorem C1_witness :
    (∀ p ∈ [("ID", "id"), ("Name", "full_name")], p.2 ≠ "primary_key") ∧
    read_source_csv [("ID", "id"), ("Name", "full_name")] [] []
      [["ID", "Name"], ["42", "Alice"], ["7", "Zed"], ["42", "Bob"]] ["id"] =
      .ok ([[("primary_key", "7"), ("full_name", "zed")]], [],
        [[("primary_key", "42"), ("full_name", "bob")],
         [("primary_key", "42"), ("full_name", "alice")]]) ∧
    ((([[("primary_key", "7"), ("full_name", "zed")]] : List Record).map pkOf).Nodup ∧
     (∀ d ∈ [[("primary_key", "42"), ("full_name", "bob")],
             [("primary_key", "42"), ("full_name", "alice")]],
      ∀ e ∈ [[("primary_key", "7"), ("full_name", "zed")]], pkOf d ≠ pkOf e)) := by
  refine ⟨by decide, by rfl, ?_⟩
  exact C1_index_unique_and_quarantined [("ID", "id"), ("Name", "full_name")] [] []
    ["id"] ["ID", "Name"] [["42", "Alice"], ["7", "Zed"], ["42", "Bob"]]
    [[("primary_key", "7"), ("full_name", "zed")]] []
    [[("primary_key", "42"), ("full_name", "bob")],
     [("primary_key", "42"), ("full_name", "alice")]]
    (by decide) (by rfl)

/-! ## The reconciler: helper definitions and lemmas -/

/-- `x`'s composite key occurs on some record of `l`. -/
def hasMatch (x : Record) (l : List Record) : Bool :=
  l.any (fun y => pkOf y == pkOf x)

/-- `a` has a match in `l` and the (unique) matched record differs from `a`
as a dict — exactly the rows for which the loop emits a difference entry. -/
def matchedDiff (l : List Record) (a : Record) : Bool :=
  match (l.filter (fun y => pkOf y == pkOf a)).head? with
  | some m => !(recordEq a m)
  | none => false

theorem filter_pk_nodup {l : List Record} (pk : String) (hnd : (l.map pkOf).Nodup) :
    l.filter (fun y => pkOf y == some pk) = [] ∨
    ∃ m, l.filter (fun y => pkOf y == some pk) = [m] ∧ m ∈ l ∧ pkOf m = some pk := by
  induction l with
  | nil => exact Or.inl rfl
  | cons y rest ih =>
    simp only [List.map_cons, List.nodup_cons] at hnd
    rw [List.filter_cons]
    by_cases hy : (pkOf y == some pk) = true
    · rw [if_pos hy]
      have hy' : pkOf y = some pk := by simpa using hy
      have hrest : rest.filter (fun z => pkOf z == some pk) = [] := by
        rw [List.filter_eq_nil_iff]
        intro z hz hzpk
        have : pkOf z = some pk := by simpa using hzpk
        exact hnd.1 (by rw [← hy'] at this; exact this ▸ List.mem_map_of_mem pkOf hz)
      rw [hrest]
      exact Or.inr ⟨y, rfl, List.mem_cons_self _ _, hy'⟩
    · rw [if_neg hy]
      rcases ih hnd.2 with h | ⟨m, hm, hmem, hpk⟩
      · exact Or.inl h
      · exact Or.inr ⟨m, hm, List.mem_cons_of_mem _ hmem, hpk⟩

theorem removeFirst_append (p q : List Record) (x : Record)
    (hp : ∀ y ∈ p, recordEq y x = false) (hx : recordEq x x = true) :
    removeFirst (p ++ x :: q) x = .ok (p ++ q) := by
  induction p with
  | nil =>
    simp only [List.nil_append, removeFirst, hx]
    rfl
  | cons y rest ih =>
    have hy := hp y (List.mem_cons_self _ _)
    have ih' := ih (fun z hz => hp z (List.mem_cons_of_mem _ hz))
    have ih2 : removeFirst (rest.append (x :: q)) x = .ok (rest ++ q) := ih'
    simp only [List.cons_append, removeFirst, hy, Bool.false_eq_true, if_false, ih', ih2]

theorem colName_ne_pk (k n : String) : (k ++ "-[" ++ n ++ "]") ≠ "primary_key" := by
  intro h
  have hd : (((k.data ++ ['-', '[']) ++ n.data) ++ [']']).getLast? =
      ("primary_key".data).getLast? := congrArg (fun s => s.data.getLast?) h
  rw [List.getLast?_append_of_ne_nil _ (by simp)] at hd
  exact absurd hd (by decide)

theorem diffLoop_pk (d2 : Record) (n1 n2 : String) :
    ∀ (fields : List (String × String)) (acc out : Record),
    diffLoop d2 n1 n2 fields acc = .ok out →
    out.lookup "primary_key" = acc.lookup "primary_key" := by
  intro fields
  induction fields with
  | nil =>
    intro acc out h
    injection h with h
    subst h
    rfl
  | cons q rest ih =>
    intro acc out h
    obtain ⟨k, v⟩ := q
    by_cases hq : k = "primary_key"
    · subst hq
      simp only [diffLoop, if_pos rfl] at h
      exact ih acc out h
    · simp only [diffLoop, if_neg hq] at h
      rcases hd : d2.lookup k with _ | v2
      · rw [hd] at h
        cases h
      · rw [hd] at h
        rw [ih _ out h]
        rw [lookup_dinsert_other (Ne.symm (colName_ne_pk k n2)),
          lookup_dinsert_other (Ne.symm (colName_ne_pk k n1))]

theorem mde_pk {a m : Record} {n1 n2 : String} {d : Record}
    (h : make_difference_entry a m n1 n2 = .ok d) : pkOf d = pkOf a := by
  unfold make_difference_entry at h
  rcases h1 : a.lookup "primary_key" with _ | pk1
  · rw [h1] at h
    cases h
  rcases h2 : m.lookup "primary_key" with _ | pk2
  · simp only [h1, h2] at h
    cases h
  simp only [h1, h2] at h
  by_cases hne : pk1 ≠ pk2
  · rw [if_pos hne] at h
    cases h
  · rw [if_neg hne] at h
    have := diffLoop_pk m n1 n2 a [("primary_key", pk1)] d h
    unfold pkOf
    rw [this, h1, lookup_cons, if_pos rfl]

theorem hasMatch_eq_false {x : Record} {l : List Record} {pk : String} (hx : pkOf x = some pk)
    (h : l.filter (fun y => y.lookup "primary_key" == some pk) = []) :
    hasMatch x l = false := by
  unfold hasMatch
  rw [List.any_eq_false]
  intro y hy hc
  rw [hx] at hc
  rw [List.filter_eq_nil_iff] at h
  exact h y hy hc

theorem hasMatch_eq_true {x m : Record} {l : List Record} (hm : m ∈ l)
    (hpk : pkOf m = pkOf x) : hasMatch x l = true := by
  unfold hasMatch
  rw [List.any_eq_true]
  exact ⟨m, hm, by simp [hpk]⟩

theorem compare_loop (n1 n2 : String) (e2copy : List Record)
    (h2pk : ∀ e ∈ e2copy, (e.lookup "primary_key").isSome)
    (h2nd : (e2copy.map pkOf).Nodup)
    (h2keys : ∀ e ∈ e2copy, (e.map Prod.fst).Nodup) :
    ∀ (l p1 b2 x1 ds0 : List Record) (st' : CompareState),
    (∀ c ∈ l, (pkOf c).isSome) →
    ((l.map pkOf).Nodup) →
    (∀ c ∈ l, (c.map Prod.fst).Nodup) →
    (∀ y ∈ p1, ∀ c ∈ l, pkOf y ≠ pkOf c) →
    (List.Sublist b2 e2copy) →
    (∀ c ∈ l, ∀ y ∈ e2copy, pkOf y = pkOf c → y ∈ b2) →
    exFold (compareEntry e2copy n1 n2) ⟨p1 ++ l, b2, x1, ds0⟩ l = .ok st' →
    st'.s1 = p1 ++ l.filter (fun c => !(hasMatch c e2copy)) ∧
    st'.s2 = b2.filter (fun b => !(hasMatch b l)) ∧
    st'.extra1 = x1 ++ l.filter (fun c => !(hasMatch c e2copy)) ∧
    st'.diffs.map pkOf = ds0.map pkOf ++ (l.filter (matchedDiff e2copy)).map pkOf ∧
    (∀ d ∈ st'.diffs, d ∈ ds0 ∨ ∃ c ∈ l, ∃ m ∈ e2copy, pkOf m = pkOf c ∧
      recordEq c m = false ∧ make_difference_entry c m n1 n2 = .ok d) := by
  intro l
  induction l with
  | nil =>
    intro p1 b2 x1 ds0 st' _ _ _ _ _ _ hok
    simp only [exFold] at hok
    injection hok with hok
    subst hok
    refine ⟨by simp, ?_, by simp, by simp, fun d hd => Or.inl hd⟩
    show b2 = b2.filter (fun b => !(hasMatch b []))
    simp [hasMatch]
  | cons a rest ih =>
    intro p1 b2 x1 ds0 st' hlpk hlnd hlkeys hdisj hsub hkeep hok
    have hapk := hlpk a (List.mem_cons_self _ _)
    rcases hpa : pkOf a with _ | pk
    · rw [hpa] at hapk; cases hapk
    simp only [List.map_cons, List.nodup_cons, hpa] at hlnd
    have hfilter := pkFilterE_ok e2copy pk h2pk
    rcases filter_pk_nodup pk h2nd with hnil | ⟨m, hm1, hmmem, hmpk⟩
    · -- the row has no match in source 2: it goes to extra1, nothing is removed
      have hnil' : e2copy.filter (fun y => y.lookup "primary_key" == some pk) = [] := hnil
      have hstep : compareEntry e2copy n1 n2 ⟨p1 ++ a :: rest, b2, x1, ds0⟩ a =
          .ok ⟨p1 ++ a :: rest, b2, x1 ++ [a], ds0⟩ := by
        unfold compareEntry
        have hpa' : a.lookup "primary_key" = some pk := hpa
        simp only [hpa', hfilter, hnil']
        rfl
      simp only [exFold, hstep] at hok
      have hok' : exFold (compareEntry e2copy n1 n2)
          ⟨(p1 ++ [a]) ++ rest, b2, x1 ++ [a], ds0⟩ rest = .ok st' := by
        rw [List.append_assoc]
        simpa using hok
      have hnomatch : hasMatch a e2copy = false := hasMatch_eq_false hpa hnil'
      have hdisj' : ∀ y ∈ p1 ++ [a], ∀ c ∈ rest, pkOf y ≠ pkOf c := by
        intro y hy c hc
        rcases List.mem_append.mp hy with hy | hy
        · exact hdisj y hy c (List.mem_cons_of_mem _ hc)
        · simp only [List.mem_singleton] at hy
          subst hy
          rw [hpa]
          intro hcon
          exact hlnd.1 (hcon ▸ List.mem_map_of_mem pkOf hc)
      obtain ⟨c1, c2, c3, c4, c5⟩ := ih (p1 ++ [a]) b2 (x1 ++ [a]) ds0 st'
        (fun c hc => hlpk c (List.mem_cons_of_mem _ hc)) hlnd.2
        (fun c hc => hlkeys c (List.mem_cons_of_mem _ hc)) hdisj' hsub
        (fun c hc => hkeep c (List.mem_cons_of_mem _ hc)) hok'
      have hfc : (a :: rest).filter (fun c => !(hasMatch c e2copy)) =
          a :: rest.filter (fun c => !(hasMatch c e2copy)) := by
        rw [List.filter_cons, if_pos (by rw [hnomatch]; rfl)]
      have hfd : (a :: rest).filter (matchedDiff e2copy) =
          rest.filter (matchedDiff e2copy) := by
        rw [List.filter_cons, if_neg]
        unfold matchedDiff
        rw [show e2copy.filter (fun y => pkOf y == pkOf a) =
            e2copy.filter (fun y => y.lookup "primary_key" == some pk) by
          apply List.filter_congr
          intro y _
          rw [hpa]
          rfl]
        rw [hnil']
        simp
      refine ⟨?_, ?_, ?_, ?_, ?_⟩
      · rw [c1, hfc, List.append_assoc]
        rfl
      · rw [c2]
        apply List.filter_congr
        intro b hb
        have hbpk : pkOf b ≠ some pk := by
          intro hcon
          have : b ∈ e2copy.filter (fun y => y.lookup "primary_key" == some pk) :=
            List.mem_filter.mpr ⟨hsub.subset hb, by simp [show b.lookup "primary_key" = some pk from hcon]⟩
          rw [hnil'] at this
          cases this
        unfold hasMatch
        simp only [List.any_cons]
        rw [show (pkOf a == pkOf b) = false by
          rw [hpa]
          simp only [beq_eq_false_iff_ne]
          exact fun hcon => hbpk hcon.symm]
        rw [Bool.false_or]
      · rw [c3, hfc, List.append_assoc]
        rfl
      · rw [c4, hfd]
      · intro d hd
        rcases c5 d hd with h | ⟨c, hc, hrest⟩
        · exact Or.inl h
        · exact Or.inr ⟨c, List.mem_cons_of_mem _ hc, hrest⟩
    · -- exactly one match m: maybe emit a difference, then remove both records
      have hm1' : e2copy.filter (fun y => y.lookup "primary_key" == some pk) = [m] := hm1
      have hmatch : hasMatch a e2copy = true :=
        hasMatch_eq_true hmmem (by rw [hmpk, hpa])
      -- the match is unique among e2copy, b2 and their sublists
      have huniq_e2 : ∀ y ∈ e2copy, pkOf y = some pk → y = m := by
        intro y hy hypk
        have : y ∈ e2copy.filter (fun z => z.lookup "primary_key" == some pk) :=
          List.mem_filter.mpr ⟨hy, by simp [show y.lookup "primary_key" = some pk from hypk]⟩
        rw [hm1'] at this
        simpa using this
      have hmb2 : m ∈ b2 := hkeep a (List.mem_cons_self _ _) m hmmem (by rw [hmpk, hpa])
      have hb2nd : (b2.map pkOf).Nodup := (hsub.map pkOf).nodup h2nd
      -- removing a from s1
      have hpa' : a.lookup "primary_key" = some pk := hpa
      have hrm1 : removeFirst (p1 ++ a :: rest) a = .ok (p1 ++ rest) := by
        apply removeFirst_append
        · intro y hy
          by_contra hcon
          rw [Bool.not_eq_false] at hcon
          have hlk := recordEq_pk hcon hpa'
          refine hdisj y hy a (List.mem_cons_self _ _) ?_
          show pkOf y = pkOf a
          unfold pkOf
          rw [hlk, hpa']
        · exact recordEq_refl (hlkeys a (List.mem_cons_self _ _))
      -- removing m from s2
      have huniq_b2 : ∀ y ∈ b2, recordEq y m = true → y = m := by
        intro y hy hreq
        exact huniq_e2 y (hsub.subset hy)
          (recordEq_pk hreq (show m.lookup "primary_key" = some pk from hmpk))
      obtain ⟨u1, u2, hb2split, hrm2⟩ :=
        removeFirst_ok b2 m hmb2 (recordEq_refl (h2keys m hmmem)) huniq_b2
      -- elements of u1 ++ u2 don't carry key pk
      have hu_pk : ∀ y ∈ u1 ++ u2, pkOf y ≠ some pk := by
        intro y hy hypk
        have hyb2 : y ∈ b2 := by
          rw [hb2split]
          rcases List.mem_append.mp hy with hy | hy
          · exact List.mem_append.mpr (Or.inl hy)
          · exact List.mem_append.mpr (Or.inr (List.mem_cons_of_mem _ hy))
        have hym : y = m := huniq_e2 y (hsub.subset hyb2) hypk
        subst hym
        -- y = m occurs in u1 or u2, but b2's keys are distinct and m also occurs between them
        rw [hb2split] at hb2nd
        simp only [List.map_append, List.map_cons] at hb2nd
        rcases List.mem_append.mp hy with hy | hy
        · rw [List.nodup_append] at hb2nd
          exact hb2nd.2.2 (List.mem_map_of_mem pkOf hy) (List.mem_cons_self _ _)
        · rw [List.nodup_append] at hb2nd
          exact (List.nodup_cons.mp hb2nd.2.1).1 (List.mem_map_of_mem pkOf hy)
      -- the new match pool still contains every record rest will need
      have hkeep' : ∀ c ∈ rest, ∀ y ∈ e2copy, pkOf y = pkOf c → y ∈ u1 ++ u2 := by
        intro c hc y hy hypk
        have hyb2 : y ∈ b2 := hkeep c (List.mem_cons_of_mem _ hc) y hy hypk
        have hym : y ≠ m := by
          intro hcon
          subst hcon
          have : pkOf c = some pk := by rw [← hypk, hmpk]
          exact hlnd.1 (this ▸ List.mem_map_of_mem pkOf hc)
        rw [hb2split] at hyb2
        rcases List.mem_append.mp hyb2 with hy2 | hy2
        · exact List.mem_append.mpr (Or.inl hy2)
        · rcases List.mem_cons.mp hy2 with hy2 | hy2
          · exact absurd hy2 hym
          · exact List.mem_append.mpr (Or.inr hy2)
      have hsub' : List.Sublist (u1 ++ u2) e2copy := by
        refine List.Sublist.trans ?_ hsub
        rw [hb2split]
        exact List.Sublist.append_left (List.sublist_cons_self m u2) u1
      -- the step itself, by cases on whether the matched records are equal
      by_cases hreq : recordEq a m = true
      · have hstep : compareEntry e2copy n1 n2 ⟨p1 ++ a :: rest, b2, x1, ds0⟩ a =
            .ok ⟨p1 ++ rest, u1 ++ u2, x1, ds0⟩ := by
          unfold compareEntry
          simp only [hpa', hfilter, hm1']
          rw [if_neg (by simp), if_pos hreq]
          simp only [hrm1, hrm2]
        simp only [exFold, hstep] at hok
        obtain ⟨c1, c2, c3, c4, c5⟩ := ih p1 (u1 ++ u2) x1 ds0 st'
          (fun c hc => hlpk c (List.mem_cons_of_mem _ hc)) hlnd.2
          (fun c hc => hlkeys c (List.mem_cons_of_mem _ hc))
          (fun y hy c hc => hdisj y hy c (List.mem_cons_of_mem _ hc)) hsub' hkeep' hok
        have hfc : (a :: rest).filter (fun c => !(hasMatch c e2copy)) =
            rest.filter (fun c => !(hasMatch c e2copy)) := by
          rw [List.filter_cons, if_neg (by rw [hmatch]; simp)]
        have hfd : (a :: rest).filter (matchedDiff e2copy) =
            rest.filter (matchedDiff e2copy) := by
          rw [List.filter_cons, if_neg]
          unfold matchedDiff
          rw [show e2copy.filter (fun y => pkOf y == pkOf a) =
              e2copy.filter (fun y => y.lookup "primary_key" == some pk) by
            apply List.filter_congr
            intro y _
            rw [hpa]
            rfl]
          rw [hm1']
          simp only [List.head?_cons]
          rw [hreq]
          simp
        have hs2 : (u1 ++ u2).filter (fun b => !(hasMatch b rest)) =
            b2.filter (fun b => !(hasMatch b (a :: rest))) := by
          rw [hb2split, List.filter_append, List.filter_append, List.filter_cons]
          rw [if_neg (by
            unfold hasMatch
            simp only [List.any_cons]
            rw [show (pkOf a == pkOf m) = true by rw [hpa, hmpk]; exact beq_self_eq_true _]
            simp)]
          congr 1
          · apply List.filter_congr
            intro y hy
            unfold hasMatch
            simp only [List.any_cons]
            rw [show (pkOf a == pkOf y) = false by
              simp only [beq_eq_false_iff_ne, hpa]
              exact fun hcon => hu_pk y (List.mem_append.mpr (Or.inl hy)) hcon.symm]
            rw [Bool.false_or]
          · apply List.filter_congr
            intro y hy
            unfold hasMatch
            simp only [List.any_cons]
            rw [show (pkOf a == pkOf y) = false by
              simp only [beq_eq_false_iff_ne, hpa]
              exact fun hcon => hu_pk y (List.mem_append.mpr (Or.inr hy)) hcon.symm]
            rw [Bool.false_or]
        refine ⟨?_, ?_, ?_, ?_, ?_⟩
        · rw [c1, hfc]
        · rw [c2, hs2]
        · rw [c3, hfc]
        · rw [c4, hfd]
        · intro d hd
          rcases c5 d hd with h | ⟨c, hc, hrest2⟩
          · exact Or.inl h
          · exact Or.inr ⟨c, List.mem_cons_of_mem _ hc, hrest2⟩
      · -- differing matched records: a difference entry is emitted
        rw [Bool.not_eq_true] at hreq
        rcases hmde : make_difference_entry a m n1 n2 with e | d
        · -- a failing difference construction aborts the loop, contradicting hok
          have hstep : compareEntry e2copy n1 n2 ⟨p1 ++ a :: rest, b2, x1, ds0⟩ a =
              .error e := by
            unfold compareEntry
            simp only [hpa', hfilter, hm1']
            rw [if_neg (by simp), if_neg (by simp [hreq])]
            simp only [hmde]
          simp only [exFold, hstep] at hok
          cases hok
        · have hstep : compareEntry e2copy n1 n2 ⟨p1 ++ a :: rest, b2, x1, ds0⟩ a =
              .ok ⟨p1 ++ rest, u1 ++ u2, x1, ds0 ++ [d]⟩ := by
            unfold compareEntry
            simp only [hpa', hfilter, hm1']
            rw [if_neg (by simp), if_neg (by simp [hreq])]
            simp only [hmde, hrm1, hrm2]
          simp only [exFold, hstep] at hok
          obtain ⟨c1, c2, c3, c4, c5⟩ := ih p1 (u1 ++ u2) x1 (ds0 ++ [d]) st'
            (fun c hc => hlpk c (List.mem_cons_of_mem _ hc)) hlnd.2
            (fun c hc => hlkeys c (List.mem_cons_of_mem _ hc))
            (fun y hy c hc => hdisj y hy c (List.mem_cons_of_mem _ hc)) hsub' hkeep' hok
          have hfc : (a :: rest).filter (fun c => !(hasMatch c e2copy)) =
              rest.filter (fun c => !(hasMatch c e2copy)) := by
            rw [List.filter_cons, if_neg (by rw [hmatch]; simp)]
          have hfd : (a :: rest).filter (matchedDiff e2copy) =
              a :: rest.filter (matchedDiff e2copy) := by
            rw [List.filter_cons, if_pos]
            unfold matchedDiff
            rw [show e2copy.filter (fun y => pkOf y == pkOf a) =
                e2copy.filter (fun y => y.lookup "primary_key" == some pk) by
              apply List.filter_congr
              intro y _
              rw [hpa]
              rfl]
            rw [hm1']
            simp only [List.head?_cons]
            rw [hreq]
            rfl
          have hs2 : (u1 ++ u2).filter (fun b => !(hasMatch b rest)) =
              b2.filter (fun b => !(hasMatch b (a :: rest))) := by
            rw [hb2split, List.filter_append, List.filter_append, List.filter_cons]
            rw [if_neg (by
              unfold hasMatch
              simp only [List.any_cons]
              rw [show (pkOf a == pkOf m) = true by rw [hpa, hmpk]; exact beq_self_eq_true _]
              simp)]
            congr 1
            · apply List.filter_congr
              intro y hy
              unfold hasMatch
              simp only [List.any_cons]
              rw [show (pkOf a == pkOf y) = false by
                simp only [beq_eq_false_iff_ne, hpa]
                exact fun hcon => hu_pk y (List.mem_append.mpr (Or.inl hy)) hcon.symm]
              rw [Bool.false_or]
            · apply List.filter_congr
              intro y hy
              unfold hasMatch
              simp only [List.any_cons]
              rw [show (pkOf a == pkOf y) = false by
                simp only [beq_eq_false_iff_ne, hpa]
                exact fun hcon => hu_pk y (List.mem_append.mpr (Or.inr hy)) hcon.symm]
              rw [Bool.false_or]
          refine ⟨?_, ?_, ?_, ?_, ?_⟩
          · rw [c1, hfc]
          · rw [c2, hs2]
          · rw [c3, hfc]
          · rw [c4, hfd]
            simp only [List.map_append, List.map_cons, List.map_nil, List.append_assoc]
            rw [mde_pk hmde]
            rfl
          · intro d' hd'
            rcases c5 d' hd' with h | ⟨c, hc, hrest2⟩
            · rcases List.mem_append.mp h with h | h
              · exact Or.inl h
              · simp only [List.mem_singleton] at h
                subst h
                exact Or.inr ⟨a, List.mem_cons_self _ _, m, hmmem,
                  by rw [hmpk, hpa], hreq, hmde⟩
            · exact Or.inr ⟨c, List.mem_cons_of_mem _ hc, hrest2⟩

/-- Full characterization of a successful comparison run on indices with
unique keys: `source_1_extra` and the final `source_1_entries` are the
unmatched source-1 records, `source_2_extra` (= final `source_2_entries`) are
the unmatched source-2 records, and the difference entries carry exactly the
keys of matched-but-differing pairs. -/
theorem reconcile_spec (n1 n2 : String) (e1 e2 ex1 ex2 ds r1 r2 : List Record)
    (h1pk : ∀ e ∈ e1, (pkOf e).isSome) (h2pk : ∀ e ∈ e2, (pkOf e).isSome)
    (h1nd : (e1.map pkOf).Nodup) (h2nd : (e2.map pkOf).Nodup)
    (h1keys : ∀ e ∈ e1, (e.map Prod.fst).Nodup)
    (h2keys : ∀ e ∈ e2, (e.map Prod.fst).Nodup)
    (hok : reconcile n1 n2 e1 e2 = .ok (ex1, ex2, ds, r1, r2)) :
    ex1 = e1.filter (fun a => !(hasMatch a e2)) ∧
    ex2 = e2.filter (fun b => !(hasMatch b e1)) ∧
    r1 = e1.filter (fun a => !(hasMatch a e2)) ∧
    r2 = ex2 ∧
    ds.map pkOf = (e1.filter (matchedDiff e2)).map pkOf ∧
    (∀ d ∈ ds, ∃ c ∈ e1, ∃ m ∈ e2, pkOf m = pkOf c ∧ recordEq c m = false ∧
      make_difference_entry c m n1 n2 = .ok d) := by
  unfold reconcile at hok
  rcases hf : exFold (compareEntry e2 n1 n2) ⟨e1, e2, [], []⟩ e1 with e | st
  · simp only [hf] at hok
    cases hok
  · simp only [hf] at hok
    obtain ⟨c1, c2, c3, c4, c5⟩ := compare_loop n1 n2 e2 h2pk h2nd h2keys e1 [] e2 [] [] st
      h1pk h1nd h1keys (fun y hy => absurd hy (List.not_mem_nil y))
      (List.Sublist.refl e2) (fun c _ y _ hpk2 => by assumption) hf
    injection hok with hok
    injection hok with h1 hrest
    injection hrest with h2 hrest
    injection hrest with h3 hrest
    injection hrest with h4 h5
    subst h1
    subst h2
    subst h3
    subst h4
    subst h5
    refine ⟨by simpa using c3, c2, by simpa using c1, rfl, by simpa using c4, ?_⟩
    intro d hd
    rcases c5 d hd with h | ⟨c, hc, m, hm, hrest2⟩
    · cases h
    · exact ⟨c, hc, m, hm, hrest2⟩

/-- **C2.** For indices with unique composite keys (as the Source Normalizer
produces), a successful reconciliation puts a source-1 record into `extra_1`
iff no record in index 2 has its composite key, and after the pass `extra_2`
consists of exactly those source-2 records whose composite key occurs on no
record of index 1. -/
theorem C2_extras_characterization (n1 n2 : String)
    (e1 e2 ex1 ex2 ds r1 r2 : List Record)
    (h1pk : ∀ e ∈ e1, (pkOf e).isSome) (h2pk : ∀ e ∈ e2, (pkOf e).isSome)
    (h1nd : (e1.map pkOf).Nodup) (h2nd : (e2.map pkOf).Nodup)
    (h1keys : ∀ e ∈ e1, (e.map Prod.fst).Nodup)
    (h2keys : ∀ e ∈ e2, (e.map Prod.fst).Nodup)
    (hok : reconcile n1 n2 e1 e2 = .ok (ex1, ex2, ds, r1, r2)) :
    ex1 = e1.filter (fun a => !(hasMatch a e2)) ∧
    (∀ a ∈ e1, a ∈ ex1 ↔ hasMatch a e2 = false) ∧
    ex2 = e2.filter (fun b => !(hasMatch b e1)) ∧
    (∀ b ∈ e2, b ∈ ex2 ↔ hasMatch b e1 = false) := by
  obtain ⟨hx1, hx2, _, _, _, _⟩ :=
    reconcile_spec n1 n2 e1 e2 ex1 ex2 ds r1 r2 h1pk h2pk h1nd h2nd h1keys h2keys hok
  refine ⟨hx1, ?_, hx2, ?_⟩
  · intro a ha
    rw [hx1, List.mem_filter]
    constructor
    · intro h
      simpa using h.2
    · intro h
      exact ⟨ha, by simp [h]⟩
  · intro b hb
    rw [hx2, List.mem_filter]
    constructor
    · intro h
      simpa using h.2
    · intro h
      exact ⟨hb, by simp [h]⟩

/-- Witness for C2 on concrete indices with keys `{1, 2}` and `{2, 3}`:
record 1 is extra-to-2, record 3 is extra-to-1. -/
theorem C2_witness :
    reconcile "Test 1" "Test 2"
      [[("primary_key", "1"), ("f", "x")], [("primary_key", "2"), ("f", "y")]]
      [[("primary_key", "2"), ("f", "y")], [("primary_key", "3"), ("f", "z")]] =
      .ok ([[("primary_key", "1"), ("f", "x")]], [[("primary_key", "3"), ("f", "z")]], [],
        [[("primary_key", "1"), ("f", "x")]], [[("primary_key", "3"), ("f", "z")]]) ∧
    [[("primary_key", "1"), ("f", "x")]] =
      ([[("primary_key", "1"), ("f", "x")], [("primary_key", "2"), ("f", "y")]] :
        List Record).filter (fun a => !(hasMatch a
          [[("primary_key", "2"), ("f", "y")], [("primary_key", "3"), ("f", "z")]])) ∧
    [[("primary_key", "3"), ("f", "z")]] =
      ([[("primary_key", "2"), ("f", "y")], [("primary_key", "3"), ("f", "z")]] :
        List Record).filter (fun b => !(hasMatch b
          [[("primary_key", "1"), ("f", "x")], [("primary_key", "2"), ("f", "y")]])) := by
  refine ⟨by rfl, ?_, ?_⟩
  · exact (C2_extras_characterization "Test 1" "Test 2"
      [[("primary_key", "1"), ("f", "x")], [("primary_key", "2"), ("f", "y")]]
      [[("primary_key", "2"), ("f", "y")], [("primary_key", "3"), ("f", "z")]]
      [[("primary_key", "1"), ("f", "x")]] [[("primary_key", "3"), ("f", "z")]] []
      [[("primary_key", "1"), ("f", "x")]] [[("primary_key", "3"), ("f", "z")]]
      (by decide) (by decide) (by decide) (by decide) (by decide) (by decide) (by rfl)).1
  · exact (C2_extras_characterization "Test 1" "Test 2"
      [[("primary_key", "1"), ("f", "x")], [("primary_key", "2"), ("f", "y")]]
      [[("primary_key", "2"), ("f", "y")], [("primary_key", "3"), ("f", "z")]]
      [[("primary_key", "1"), ("f", "x")]] [[("primary_key", "3"), ("f", "z")]] []
      [[("primary_key", "1"), ("f", "x")]] [[("primary_key", "3"), ("f", "z")]]
      (by decide) (by decide) (by decide) (by decide) (by decide) (by decide) (by rfl)).2.2.1

/-- **C8, counterexample.** The claim says the Normalizer's returned lists are
left unchanged by the Reconciler and entries are only removed from the working
copies.  The code does the opposite: it iterates over the copies but calls
`remove` on `source_1_entries` / `source_2_entries` themselves, so on a pair
of identical one-record indices the originals end empty. -/
theorem C8_counterexample :
    reconcile "Test 1" "Test 2" [[("primary_key", "1"), ("a", "x")]]
        [[("primary_key", "1"), ("a", "x")]] =
      .ok ([], [], [], [], []) ∧
    ([] : List Record) ≠ [[("primary_key", "1"), ("a", "x")]] := by
  exact ⟨by rfl, by simp⟩

/-- **C8, amended.** The reconciler iterates over and matches against the
unmodified working copies (in this embedding, matching always consults the
full initial `source_2_entries_copy`, never the shrinking list), but its
removal bookkeeping mutates the Normalizer's returned lists: after a
successful pass the originals contain exactly the unmatched (extra) records
of each side. -/
theorem C8_originals_pruned (n1 n2 : String)
    (e1 e2 ex1 ex2 ds r1 r2 : List Record)
    (h1pk : ∀ e ∈ e1, (pkOf e).isSome) (h2pk : ∀ e ∈ e2, (pkOf e).isSome)
    (h1nd : (e1.map pkOf).Nodup) (h2nd : (e2.map pkOf).Nodup)
    (h1keys : ∀ e ∈ e1, (e.map Prod.fst).Nodup)
    (h2keys : ∀ e ∈ e2, (e.map Prod.fst).Nodup)
    (hok : reconcile n1 n2 e1 e2 = .ok (ex1, ex2, ds, r1, r2)) :
    r1 = e1.filter (fun a => !(hasMatch a e2)) ∧
    r2 = e2.filter (fun b => !(hasMatch b e1)) := by
  obtain ⟨_, h2, h3, h4, _, _⟩ :=
    reconcile_spec n1 n2 e1 e2 ex1 ex2 ds r1 r2 h1pk h2pk h1nd h2nd h1keys h2keys hok
  exact ⟨h3, h4.trans h2⟩

/-- Witness for the amended C8: on identical one-record indices the matched
pair is removed from both originals, leaving exactly the (empty) extras. -/
theorem C8_witness :
    reconcile "Test 1" "Test 2" [[("primary_key", "1"), ("a", "x")]]
        [[("primary_key", "1"), ("a", "x")]] = .ok ([], [], [], [], []) ∧
    (([] : List Record) =
      ([[("primary_key", "1"), ("a", "x")]] : List Record).filter
        (fun a => !(hasMatch a [[("primary_key", "1"), ("a", "x")]]))) := by
  refine ⟨by rfl, ?_⟩
  exact (C8_originals_pruned "Test 1" "Test 2"
    [[("primary_key", "1"), ("a", "x")]] [[("primary_key", "1"), ("a", "x")]]
    [] [] [] [] []
    (by decide) (by decide) (by decide) (by decide) (by decide) (by decide) (by rfl)).1

theorem count_one_of_nodup_mem {l : List (Option String)} {a : Option String}
    (hnd : l.Nodup) (ha : a ∈ l) : l.count a = 1 := by
  induction l with
  | nil => cases ha
  | cons x rest ih =>
    rcases List.nodup_cons.mp hnd with ⟨hx, hrest⟩
    rcases List.mem_cons.mp ha with rfl | ha'
    · have hz : rest.count a = 0 := by
        rw [List.count_eq_zero]
        exact hx
      rw [List.count_cons, hz]
      simp
    · have hne : (x == a) = false := by
        rw [beq_eq_false_iff_ne]
        intro h
        exact hx (h ▸ ha')
      rw [List.count_cons, ih hrest ha', hne]
      rfl

/-- **C3.** For a composite key present in both indices (with unique keys on
each side), a successful reconciliation emits exactly one difference entry
for that key iff the two matched records are not field-for-field identical;
a record present identically in both sources produces neither an extra entry
nor a difference entry. -/
theorem C3_matched_pairs (n1 n2 : String) (e1 e2 ex1 ex2 ds r1 r2 : List Record)
    (a b : Record) (k : String)
    (h1pk : ∀ e ∈ e1, (pkOf e).isSome) (h2pk : ∀ e ∈ e2, (pkOf e).isSome)
    (h1nd : (e1.map pkOf).Nodup) (h2nd : (e2.map pkOf).Nodup)
    (h1keys : ∀ e ∈ e1, (e.map Prod.fst).Nodup)
    (h2keys : ∀ e ∈ e2, (e.map Prod.fst).Nodup)
    (ha : a ∈ e1) (hb : b ∈ e2) (hak : pkOf a = some k) (hbk : pkOf b = some k)
    (hok : reconcile n1 n2 e1 e2 = .ok (ex1, ex2, ds, r1, r2)) :
    (recordEq a b = false → (ds.map pkOf).count (some k) = 1) ∧
    (recordEq a b = true →
      some k ∉ ds.map pkOf ∧ a ∉ ex1 ∧ b ∉ ex2) := by
  obtain ⟨hx1, hx2, _, _, hmap, _⟩ :=
    reconcile_spec n1 n2 e1 e2 ex1 ex2 ds r1 r2 h1pk h2pk h1nd h2nd h1keys h2keys hok
  -- the unique source-2 match of a is b, so the difference predicate on a is
  -- exactly record inequality with b
  have hfb : e2.filter (fun y => pkOf y == pkOf a) = [b] := by
    have hcongr : e2.filter (fun y => pkOf y == pkOf a) =
        e2.filter (fun y => pkOf y == some k) := by
      apply List.filter_congr
      intro y _
      rw [hak]
    rw [hcongr]
    rcases filter_pk_nodup k h2nd with hnil | ⟨m, hm, _, _⟩
    · exfalso
      rw [List.filter_eq_nil_iff] at hnil
      exact hnil b hb (by simp [hbk])
    · have hbmem : b ∈ e2.filter (fun y => pkOf y == some k) :=
        List.mem_filter.mpr ⟨hb, by simp [hbk]⟩
      rw [hm] at hbmem
      simp only [List.mem_singleton] at hbmem
      rw [hm, hbmem]
  have hmd : matchedDiff e2 a = !(recordEq a b) := by
    unfold matchedDiff
    rw [hfb]
    rfl
  have hnd' : ((e1.filter (matchedDiff e2)).map pkOf).Nodup :=
    ((List.filter_sublist e1).map pkOf).nodup h1nd
  have hmem_iff : some k ∈ (e1.filter (matchedDiff e2)).map pkOf ↔
      matchedDiff e2 a = true := by
    constructor
    · intro hm
      rcases List.mem_map.mp hm with ⟨c, hcf, hck⟩
      have hc1 : c ∈ e1 := (List.mem_filter.mp hcf).1
      have : c = a := List.inj_on_of_nodup_map h1nd hc1 ha (by rw [hck, hak])
      subst this
      exact (List.mem_filter.mp hcf).2
    · intro hm
      exact List.mem_map.mpr ⟨a, List.mem_filter.mpr ⟨ha, hm⟩, hak⟩
  constructor
  · intro hne
    rw [hmap]
    apply count_one_of_nodup_mem hnd'
    apply hmem_iff.mpr
    rw [hmd, hne]
    rfl
  · intro heq
    have hnm : some k ∉ (e1.filter (matchedDiff e2)).map pkOf := by
      intro hm
      have := hmem_iff.mp hm
      rw [hmd, heq] at this
      cases this
    refine ⟨by rw [hmap]; exact hnm, ?_, ?_⟩
    · rw [hx1]
      intro hmem
      have := (List.mem_filter.mp hmem).2
      rw [hasMatch_eq_true hb (by rw [hbk, hak])] at this
      cases this
    · rw [hx2]
      intro hmem
      have := (List.mem_filter.mp hmem).2
      rw [hasMatch_eq_true ha (by rw [hak, hbk])] at this
      cases this

/-- Witness for C3: key `9` present in both sources with differing `status`
values — exactly one difference entry; no extras are produced. -/
theorem C3_witness :
    reconcile "Test 1" "Test 2" [[("primary_key", "9"), ("status", "active")]]
        [[("primary_key", "9"), ("status", "closed")]] =
      .ok ([], [],
        [[("primary_key", "9"), ("status-[Test 1]", "active"),
          ("status-[Test 2]", "closed")]], [], []) ∧
    recordEq [("primary_key", "9"), ("status", "active")]
      [("primary_key", "9"), ("status", "closed")] = false ∧
    (([[("primary_key", "9"), ("status-[Test 1]", "active"),
        ("status-[Test 2]", "closed")]] : List Record).map pkOf).count (some "9") = 1 := by
  refine ⟨by rfl, by decide, ?_⟩
  exact (C3_matched_pairs "Test 1" "Test 2"
    [[("primary_key", "9"), ("status", "active")]]
    [[("primary_key", "9"), ("status", "closed")]]
    [] []
    [[("primary_key", "9"), ("status-[Test 1]", "active"), ("status-[Test 2]", "closed")]]
    [] []
    [("primary_key", "9"), ("status", "active")]
    [("primary_key", "9"), ("status", "closed")] "9"
    (by decide) (by decide) (by decide) (by decide) (by decide) (by decide)
    (by decide) (by decide) (by decide) (by decide) (by rfl)).1 (by decide)

/-! ## Claim C7: symmetry of reconciliation up to label swapping -/

/-- `l` ends with `suf`. -/
def listEndsWith (l suf : List Char) : Bool :=
  l.drop (l.length - suf.length) == suf

/-- Swap the two source-name labels in a difference-entry column name: a name
ending in `-[n1]` gets that suffix replaced by `-[n2]` and vice versa; other
strings are unchanged. -/
def swapLabel (n1 n2 : String) (k : String) : String :=
  let s1 := ("-[" ++ n1 ++ "]").data
  let s2 := ("-[" ++ n2 ++ "]").data
  if listEndsWith k.data s1 then ⟨k.data.take (k.data.length - s1.length) ++ s2⟩
  else if listEndsWith k.data s2 then ⟨k.data.take (k.data.length - s2.length) ++ s1⟩
  else k

/-- Swap the source-name labels throughout a difference entry (in column names
and values, as the claim reads). -/
def swapEntry (n1 n2 : String) (d : Record) : Record :=
  d.map (fun p => (swapLabel n1 n2 p.1, swapLabel n1 n2 p.2))

/-- The claim's reading of "equal sets of difference entries up to swapping
the two source-name labels": each entry of one run, after label swapping,
equals (as a dict) some entry of the other run, and conversely. -/
def diffsMatchSwapped (n1 n2 : String) (ds1 ds2 : List Record) : Bool :=
  ds1.all (fun d => ds2.any (fun e => recordEq (swapEntry n1 n2 d) e)) &&
  ds2.all (fun e => ds1.any (fun d => recordEq (swapEntry n1 n2 d) e))

/-- **C7, counterexample.** Reconciling the same matched pair in both
directions does not give difference entries equal up to label swapping: the
`*same*` sentinel always sits under the *second* source's column, so on a pair
with one equal field (`f`) and one differing field (`g`) the two entries
disagree after any label swap (`g-[Test 2]` carries `q` in the swapped first
entry but `r` in the second run's entry). -/
theorem C7_counterexample :
    reconcile "Test 1" "Test 2" [[("primary_key", "1"), ("f", "p"), ("g", "q")]]
        [[("primary_key", "1"), ("f", "p"), ("g", "r")]] =
      .ok ([], [], [[("primary_key", "1"), ("f-[Test 1]", "p"), ("f-[Test 2]", "*same*"),
        ("g-[Test 1]", "q"), ("g-[Test 2]", "r")]], [], []) ∧
    reconcile "Test 2" "Test 1" [[("primary_key", "1"), ("f", "p"), ("g", "r")]]
        [[("primary_key", "1"), ("f", "p"), ("g", "q")]] =
      .ok ([], [], [[("primary_key", "1"), ("f-[Test 2]", "p"), ("f-[Test 1]", "*same*"),
        ("g-[Test 2]", "r"), ("g-[Test 1]", "q")]], [], []) ∧
    diffsMatchSwapped "Test 1" "Test 2"
      [[("primary_key", "1"), ("f-[Test 1]", "p"), ("f-[Test 2]", "*same*"),
        ("g-[Test 1]", "q"), ("g-[Test 2]", "r")]]
      [[("primary_key", "1"), ("f-[Test 2]", "p"), ("f-[Test 1]", "*same*"),
        ("g-[Test 2]", "r"), ("g-[Test 1]", "q")]] = false := by
  exact ⟨by rfl, by rfl, by decide⟩

/-- The unique source-2 record matching key `k`. -/
theorem filter_pk_singleton {e2 : List Record} {b : Record} {k : String}
    (h2nd : (e2.map pkOf).Nodup) (hb : b ∈ e2) (hbk : pkOf b = some k)
    {a : Record} (hak : pkOf a = some k) :
    e2.filter (fun y => pkOf y == pkOf a) = [b] := by
  have hcongr : e2.filter (fun y => pkOf y == pkOf a) =
      e2.filter (fun y => pkOf y == some k) := by
    apply List.filter_congr
    intro y _
    rw [hak]
  rw [hcongr]
  rcases filter_pk_nodup k h2nd with hnil | ⟨m, hm, _, _⟩
  · exfalso
    rw [List.filter_eq_nil_iff] at hnil
    exact hnil b hb (by simp [hbk])
  · have hbmem : b ∈ e2.filter (fun y => pkOf y == some k) :=
      List.mem_filter.mpr ⟨hb, by simp [hbk]⟩
    rw [hm] at hbmem
    simp only [List.mem_singleton] at hbmem
    rw [hm, hbmem]

/-- A key appears among the difference-entry keys iff both indices hold a
record with that key and the two records differ as dicts. -/
theorem mem_diffKeys_iff (e1 e2 : List Record) (h2nd : (e2.map pkOf).Nodup) (k : String) :
    (some k ∈ (e1.filter (matchedDiff e2)).map pkOf) ↔
    ∃ a ∈ e1, ∃ b ∈ e2, pkOf a = some k ∧ pkOf b = some k ∧ recordEq a b = false := by
  constructor
  · intro hm
    rcases List.mem_map.mp hm with ⟨c, hcf, hck⟩
    obtain ⟨hc1, hmdc⟩ := List.mem_filter.mp hcf
    unfold matchedDiff at hmdc
    rcases hh : (e2.filter (fun y => pkOf y == pkOf c)).head? with _ | m
    · rw [hh] at hmdc
      cases hmdc
    · rw [hh] at hmdc
      have hmf : m ∈ e2.filter (fun y => pkOf y == pkOf c) := by
        rcases hfe : e2.filter (fun y => pkOf y == pkOf c) with _ | ⟨x, xs⟩
        · rw [hfe] at hh
          cases hh
        · rw [hfe] at hh
          injection hh with hh
          subst hh
          exact List.mem_cons_self _ _
      obtain ⟨hm2, hmk⟩ := List.mem_filter.mp hmf
      refine ⟨c, hc1, m, hm2, hck, ?_, ?_⟩
      · have : pkOf m = pkOf c := by simpa using hmk
        rw [this, hck]
      · rwa [Bool.not_eq_true'] at hmdc
  · rintro ⟨a, ha, b, hb, hak, hbk, hne⟩
    refine List.mem_map.mpr ⟨a, List.mem_filter.mpr ⟨ha, ?_⟩, hak⟩
    unfold matchedDiff
    rw [filter_pk_singleton h2nd hb hbk hak]
    simp only [List.head?_cons]
    rw [hne]
    rfl

/-- **C7, amended.** Reconciling A against B and B against A swaps the two
extras collections exactly (`extra_1` of one run equals `extra_2` of the
other, as lists), and the two difference-entry lists cover the same set of
composite keys.  The entries themselves are NOT equal up to label swapping
(see the counterexample): the `*same*` sentinel marks the second source's
column in both runs, so on fields with equal values the two runs publish the
value under opposite labels. -/
theorem C7_swap_symmetry (n1 n2 : String) (e1 e2 : List Record)
    (ex1 ex2 ds r1 r2 ex1' ex2' ds' r1' r2' : List Record)
    (h1pk : ∀ e ∈ e1, (pkOf e).isSome) (h2pk : ∀ e ∈ e2, (pkOf e).isSome)
    (h1nd : (e1.map pkOf).Nodup) (h2nd : (e2.map pkOf).Nodup)
    (h1keys : ∀ e ∈ e1, (e.map Prod.fst).Nodup)
    (h2keys : ∀ e ∈ e2, (e.map Prod.fst).Nodup)
    (hok12 : reconcile n1 n2 e1 e2 = .ok (ex1, ex2, ds, r1, r2))
    (hok21 : reconcile n2 n1 e2 e1 = .ok (ex1', ex2', ds', r1', r2')) :
    ex1 = ex2' ∧ ex2 = ex1' ∧
    (∀ k : String, some k ∈ ds.map pkOf ↔ some k ∈ ds'.map pkOf) := by
  obtain ⟨hx1, hx2, _, _, hm, _⟩ :=
    reconcile_spec n1 n2 e1 e2 ex1 ex2 ds r1 r2 h1pk h2pk h1nd h2nd h1keys h2keys hok12
  obtain ⟨hx1', hx2', _, _, hm', _⟩ :=
    reconcile_spec n2 n1 e2 e1 ex1' ex2' ds' r1' r2' h2pk h1pk h2nd h1nd h2keys h1keys hok21
  refine ⟨by rw [hx1, hx2'], by rw [hx2, hx1'], ?_⟩
  intro k
  rw [hm, hm', mem_diffKeys_iff e1 e2 h2nd k, mem_diffKeys_iff e2 e1 h1nd k]
  constructor
  · rintro ⟨a, ha, b, hb, hak, hbk, hne⟩
    exact ⟨b, hb, a, ha, hbk, hak, by rw [recordEq_symm]; exact hne⟩
  · rintro ⟨b, hb, a, ha, hbk, hak, hne⟩
    exact ⟨a, ha, b, hb, hak, hbk, by rw [recordEq_symm]; exact hne⟩

/-- Witness for the amended C7: on the counterexample pair, the extras agree
trivially and both runs' difference entries carry exactly the key `1`. -/
theorem C7_witness :
    reconcile "Test 1" "Test 2" [[("primary_key", "1"), ("f", "p"), ("g", "q")]]
        [[("primary_key", "1"), ("f", "p"), ("g", "r")]] =
      .ok ([], [], [[("primary_key", "1"), ("f-[Test 1]", "p"), ("f-[Test 2]", "*same*"),
        ("g-[Test 1]", "q"), ("g-[Test 2]", "r")]], [], []) ∧
    (some "1" ∈
        ([[("primary_key", "1"), ("f-[Test 1]", "p"), ("f-[Test 2]", "*same*"),
          ("g-[Test 1]", "q"), ("g-[Test 2]", "r")]] : List Record).map pkOf ↔
      some "1" ∈
        ([[("primary_key", "1"), ("f-[Test 2]", "p"), ("f-[Test 1]", "*same*"),
          ("g-[Test 2]", "r"), ("g-[Test 1]", "q")]] : List Record).map pkOf) := by
  refine ⟨by rfl, ?_⟩
  exact (C7_swap_symmetry "Test 1" "Test 2"
    [[("primary_key", "1"), ("f", "p"), ("g", "q")]]
    [[("primary_key", "1"), ("f", "p"), ("g", "r")]]
    [] [] [[("primary_key", "1"), ("f-[Test 1]", "p"), ("f-[Test 2]", "*same*"),
      ("g-[Test 1]", "q"), ("g-[Test 2]", "r")]] [] []
    [] [] [[("primary_key", "1"), ("f-[Test 2]", "p"), ("f-[Test 1]", "*same*"),
      ("g-[Test 2]", "r"), ("g-[Test 1]", "q")]] [] []
    (by decide) (by decide) (by decide) (by decide) (by decide) (by decide)
    (by rfl) (by rfl)).2.2 "1"

end CsvDiff
